import Mathlib

/-!
# Mython lexer (`src/mython/lexer.cpp`)

A shallow embedding of `parse::Lexer` and theorems about it.

Modelling conventions.

* A `char` is a Lean `Char`; a `std::string` and the contents of an input
  stream are `List Char`.
* `isdigit`, `isprint`, `isspace` and `ispunct` are the C library
  classifiers in the default "C" locale; they are false outside ASCII.
* A `std::istringstream` is the list of characters still to be read.
  `get` pops the head, `peek` looks at it, `unget` after a successful `get`
  puts the character back.  A stream in the failed state behaves, for every
  later operation of this program, like an exhausted one, so it is modelled
  by the empty list.
* The object state (`line_`, `head_`, `indent_level_`) is passed explicitly.
* `ReadLine` has a `while` loop that need not terminate; its model takes a
  bound on the number of loop iterations and reports `Err.outOfFuel` when
  the bound is reached.
* An out-of-range access (`line[npos]`, `substr` past the end) is reported
  as `Err.outOfRange`.
-/

set_option linter.dupNamespace false

namespace parse

/-- Modelled from the spec: the variant `parse::Token` and the structs of
`token_type` are declared in `lexer.h`; the cases and payloads are those of
the table of the data model (`Number` carries an `int`). -/
inductive Token where
  | Number (value : Int)
  | Id (value : List Char)
  | String (value : List Char)
  | Char (value : Char)
  | Class
  | Return
  | If
  | Else
  | Def
  | Newline
  | Print
  | Indent
  | Dedent
  | And
  | Or
  | Not
  | Eq
  | NotEq
  | LessOrEq
  | GreaterOrEq
  | None
  | True
  | False
  | Eof
  deriving DecidableEq, Repr

/-- Ways in which running the code can fail to produce a value. -/
inductive Err where
  | outOfRange
  | outOfFuel
  deriving DecidableEq, Repr

deriving instance DecidableEq for Except

/-- Modelled from the spec: the data members of `parse::Lexer`, declared in
`lexer.h`: the token buffer, the read cursor and the running indentation
level. -/
structure Lexer where
  line_ : List Token
  head_ : Nat
  indent_level_ : Nat
  deriving DecidableEq, Repr

/-- Modelled from the spec: the members before the constructor body runs,
set by the initialisers of `lexer.h`: an empty buffer, the cursor at the
first position and indentation level 0. -/
def Lexer.init : Lexer := ⟨[], 0, 0⟩

/-- Member call `line_.push_back(t)`. -/
def Lexer.push_back (lx : Lexer) (t : Token) : Lexer :=
  { lx with line_ := lx.line_ ++ [t] }

/-! ## C library character classes ("C" locale) -/

def isdigit (c : Char) : Bool := 48 ≤ c.toNat && c.toNat ≤ 57

def isprint (c : Char) : Bool := 32 ≤ c.toNat && c.toNat ≤ 126

def isspace (c : Char) : Bool := c.toNat = 32 || (9 ≤ c.toNat && c.toNat ≤ 13)

def ispunct (c : Char) : Bool :=
  (33 ≤ c.toNat && c.toNat ≤ 47) || (58 ≤ c.toNat && c.toNat ≤ 64) ||
  (91 ≤ c.toNat && c.toNat ≤ 96) || (123 ≤ c.toNat && c.toNat ≤ 126)

/-! ## Standard library string and stream operations -/

/-- Call `s.find_first_not_of(' ')`: `none` stands for `npos`. -/
def find_first_not_of_space : List Char → Option Nat
  | [] => none
  | c :: cs => if c = ' ' then (find_first_not_of_space cs).map (· + 1) else some 0

/-- The lines that successive `getline(in, inp_line)` calls deliver until the
call fails; `cur` holds the characters of the line being read. A final line
without a terminating newline is delivered when it is not empty. -/
def getlinesAux : List Char → List Char → List (List Char)
  | [], cur => if cur = [] then [] else [cur]
  | c :: cs, cur => if c = '\n' then cur :: getlinesAux cs [] else getlinesAux cs (cur ++ [c])

def getlines (input : List Char) : List (List Char) := getlinesAux input []

/-- Value of a run of decimal digits. -/
def digitsValue (ds : List Char) : Nat :=
  ds.foldl (fun v c => 10 * v + (c.toNat - 48)) 0

def INT_MAX : Nat := 2147483647

/-! ## Member functions of `Lexer` -/

/-- Function `Lexer::EmptyLine`. For a non-empty line of spaces only `p` is
`npos` and `line[p]` reads out of range. -/
def EmptyLine (line : List Char) : Except Err Bool :=
  if line.length = 0 then .ok true
  else
    match find_first_not_of_space line with
    | none => .error .outOfRange
    | some p =>
      if line.get? p = some '#' || (decide (p > 0) && decide (p = line.length - 1)) then .ok true
      else .ok false

/-- Function `Lexer::CheckAndCutLine`: the returned level and the new value of
the in-out argument. When there is no non-space character `result` is
`npos / 2`, beyond the size of the string, and `substr` throws. -/
def CheckAndCutLine (inp : List Char) : Except Err (Nat × List Char) :=
  match find_first_not_of_space inp with
  | none => .error .outOfRange
  | some p =>
    let result := if p ≥ 2 then p / 2 else p
    .ok (result, inp.drop result)

/-- Function `Lexer::IndentLevelOfLine`; `none` stands for `npos / 2`
converted to `int`. -/
def IndentLevelOfLine (line : List Char) : Option Nat :=
  (find_first_not_of_space line).map (fun p => if p ≥ 2 then p / 2 else p)

/-- Function `Lexer::SetIndentLevel`. -/
def SetIndentLevel (new_level : Nat) (lx : Lexer) : Lexer :=
  { lx with
    line_ := lx.line_ ++ List.replicate (new_level - lx.indent_level_) Token.Indent
                      ++ List.replicate (lx.indent_level_ - new_level) Token.Dedent
    indent_level_ := new_level }

/-- The `while (istring.get(c))` loop of `Lexer::ReadId`: the stream left
behind and the accumulated `s`. -/
def ReadIdLoop : List Char → List Char → List Char × List Char
  | [], s => ([], s)
  | c :: rest, s =>
    if (isspace c || c = ' ') || (ispunct c && c ≠ '_') then
      if ispunct c && c ≠ '_' then (c :: rest, s) else (rest, s)
    else ReadIdLoop rest (s ++ [c])

/-- The keyword chain of `Lexer::ReadId`. -/
def idToken (s : List Char) : Token :=
  if s = ['c', 'l', 'a', 's', 's'] then .Class
  else if s = ['r', 'e', 't', 'u', 'r', 'n'] then .Return
  else if s = ['i', 'f'] then .If
  else if s = ['e', 'l', 's', 'e'] then .Else
  else if s = ['d', 'e', 'f'] then .Def
  else if s = ['p', 'r', 'i', 'n', 't'] then .Print
  else if s = ['o', 'r'] then .Or
  else if s = ['N', 'o', 'n', 'e'] then .None
  else if s = ['a', 'n', 'd'] then .And
  else if s = ['n', 'o', 't'] then .Not
  else if s = ['T', 'r', 'u', 'e'] then .True
  else if s = ['F', 'a', 'l', 's', 'e'] then .False
  else .Id s

/-- Function `Lexer::ReadId`. -/
def ReadId (istring : List Char) (lx : Lexer) : List Char × Lexer :=
  let r := ReadIdLoop istring []
  (r.1, lx.push_back (idToken r.2))

/-- The `while (in.get(ch))` loop of `Lexer::ReadString`. After a backslash
at the very end of the stream the inner `in.get(ch)` fails and leaves `ch`
holding the backslash. -/
def ReadStringLoop (d : Char) : List Char → List Char → List Char × List Char
  | [], str => ([], str)
  | [ch], str =>
    if ch = d then ([], str)
    else ([], str ++ [ch])
  | ch :: c2 :: rest, str =>
    if ch = d then (c2 :: rest, str)
    else if ch = '\x5c' then
      ReadStringLoop d rest (str ++ [if c2 = 'n' then '\n' else if c2 = 't' then '\t' else c2])
    else ReadStringLoop d (c2 :: rest) (str ++ [ch])

/-- Function `Lexer::ReadString`. -/
def ReadString (inp : List Char) (d : Char) (lx : Lexer) : List Char × Lexer :=
  let r := ReadStringLoop d inp []
  (r.1, lx.push_back (.String r.2))

/-- Function `Lexer::ReadNumber`, on the stream after `unget`. `in >> d`
extracts the maximal run of digits; a value above `INT_MAX` is stored as
`INT_MAX` and puts the stream into the failed state. -/
def ReadNumber (inp : List Char) (lx : Lexer) : List Char × Lexer :=
  let v := digitsValue (inp.takeWhile isdigit)
  if v ≤ INT_MAX then (inp.dropWhile isdigit, lx.push_back (.Number v))
  else ([], lx.push_back (.Number INT_MAX))

/-- The `while (istring.get(t))` loop of `Lexer::ReadLine`; `fuel` bounds
the number of times the loop body runs. -/
def ReadLineLoop : Nat → List Char → Bool → Lexer → Except Err Lexer
  | _, [], new_line, lx => .ok (if new_line then lx.push_back .Newline else lx)
  | 0, _ :: _, _, _ => .error .outOfFuel
  | fuel + 1, t :: rest, new_line, lx =>
    if t = ' ' then ReadLineLoop fuel rest new_line lx
    else if t = '#' then .ok (lx.push_back .Newline)
    else if isdigit t then
      let r := ReadNumber (t :: rest) lx
      ReadLineLoop fuel r.1 true r.2
    else if isprint t || isspace t then
      if (t = '=' ∨ t = '!' ∨ t = '<' ∨ t = '>') ∧ rest.head? = some '=' then
        ReadLineLoop fuel rest.tail true
          (lx.push_back (if t = '=' then .Eq else if t = '!' then .NotEq
                         else if t = '<' then .LessOrEq else .GreaterOrEq))
      else if t = '=' ∨ t = '!' ∨ t = '<' ∨ t = '>' ∨
              t = '*' ∨ t = '/' ∨ t = '+' ∨ t = '-' ∨ t = '(' ∨ t = ')' ∨
              t = ',' ∨ t = '.' ∨ t = ':' ∨ t = ';' ∨ t = '\t' ∨ t = '\n' then
        ReadLineLoop fuel rest true (lx.push_back (.Char t))
      else if t = '\x27' ∨ t = '\x22' then
        let r := ReadString rest t lx
        ReadLineLoop fuel r.1 true r.2
      else
        let r := ReadId (t :: rest) lx
        ReadLineLoop fuel r.1 true r.2
    else ReadLineLoop fuel rest true lx

/-- Function `Lexer::ReadLine`. -/
def ReadLine (fuel : Nat) (istring : List Char) (lx : Lexer) : Except Err Lexer :=
  ReadLineLoop fuel istring false lx

/-- The `while (getline(in, inp_line))` loop of the constructor, over the
lines `getline` delivers. -/
def LexerLoop (fuel : Nat) : List (List Char) → Lexer → Except Err Lexer
  | [], lx => .ok lx
  | inp_line :: more, lx =>
    match EmptyLine inp_line with
    | .error e => .error e
    | .ok true => LexerLoop fuel more lx
    | .ok false =>
      match CheckAndCutLine inp_line with
      | .error e => .error e
      | .ok (level, cut) =>
        match ReadLine fuel cut (SetIndentLevel level lx) with
        | .error e => .error e
        | .ok lx' => LexerLoop fuel more lx'

/-- Constructor `Lexer::Lexer(std::istream&)`. -/
def Lexer.Lexer (fuel : Nat) (input : List Char) : Except Err Lexer :=
  match LexerLoop fuel (getlines input) Lexer.init with
  | .error e => .error e
  | .ok lx => .ok ((SetIndentLevel 0 lx).push_back .Eof)

/-- The token buffer the constructor builds. -/
def tokens (fuel : Nat) (input : List Char) : Except Err (List Token) :=
  (Lexer.Lexer fuel input).map (·.line_)

/-- Function `Lexer::CurrentToken`; `none` stands for the `logic_error`. -/
def CurrentToken (lx : Lexer) : Option Token :=
  if lx.head_ < lx.line_.length then lx.line_.get? lx.head_ else none

/-- Function `Lexer::NextToken`: the new state and the returned token. -/
def NextToken (lx : Lexer) : Lexer × Option Token :=
  let lx' := if lx.head_ + 1 < lx.line_.length then { lx with head_ := lx.head_ + 1 } else lx
  (lx', CurrentToken lx')


/-- Modelled from the spec: `index()` of the variant. The order of the
alternatives is declared in `lexer.h`; the order of the table of the data
model is used, and only the distinctness of the indices matters. -/
def Token.index : Token → Nat
  | .Number _ => 0
  | .Id _ => 1
  | .String _ => 2
  | .Char _ => 3
  | .Class => 4
  | .Return => 5
  | .If => 6
  | .Else => 7
  | .Def => 8
  | .Print => 9
  | .And => 10
  | .Or => 11
  | .Not => 12
  | .None => 13
  | .True => 14
  | .False => 15
  | .Eq => 16
  | .NotEq => 17
  | .LessOrEq => 18
  | .GreaterOrEq => 19
  | .Newline => 20
  | .Indent => 21
  | .Dedent => 22
  | .Eof => 23

/-- Test `Is<Char>()`. -/
def IsChar : Token → Bool
  | .Char _ => true
  | _ => false

/-- Test `Is<Number>()`. -/
def IsNumber : Token → Bool
  | .Number _ => true
  | _ => false

/-- Test `Is<String>()`. -/
def IsString : Token → Bool
  | .String _ => true
  | _ => false

/-- Test `Is<Id>()`. -/
def IsId : Token → Bool
  | .Id _ => true
  | _ => false

/-- Access `As<Char>().value`; `none` stands for the failure of `As` on another
alternative. -/
def AsChar : Token → Option Char
  | .Char v => some v
  | _ => none

/-- Access `As<Number>().value`. -/
def AsNumber : Token → Option Int
  | .Number v => some v
  | _ => none

/-- Access `As<String>().value`. -/
def AsString : Token → Option (List Char)
  | .String v => some v
  | _ => none

/-- Access `As<Id>().value`. -/
def AsId : Token → Option (List Char)
  | .Id v => some v
  | _ => none

/-- Function `operator==` on tokens. -/
def operator_eq (lhs rhs : Token) : Bool :=
  if lhs.index ≠ rhs.index then false
  else if IsChar lhs then AsChar lhs == AsChar rhs
  else if IsNumber lhs then AsNumber lhs == AsNumber rhs
  else if IsString lhs then AsString lhs == AsString rhs
  else if IsId lhs then AsId lhs == AsId rhs
  else true

/-- Function `operator!=` on tokens. -/
def operator_ne (lhs rhs : Token) : Bool := !(operator_eq lhs rhs)

/-- The state after `k` calls of `NextToken`. -/
def NextTokens : Nat → Lexer → Lexer
  | 0, lx => lx
  | k + 1, lx => (NextToken (NextTokens k lx)).1

/-! ## Specification-side vocabulary -/

/-- The value a run of decimal digits denotes: each digit weighted by the
power of ten of its position. -/
def decimalValue : List Char → Nat
  | [] => 0
  | c :: cs => (c.toNat - 48) * 10 ^ cs.length + decimalValue cs

/-- A piece of the text of a string literal: a character that stands for
itself, or a backslash followed by a character. -/
inductive StrItem where
  | plain (c : Char)
  | esc (c : Char)

/-- The characters of a piece in the source text. -/
def StrItem.source : StrItem → List Char
  | .plain c => [c]
  | .esc c => ['\x5c', c]

/-- The character a piece contributes to the payload. -/
def StrItem.value : StrItem → Char
  | .plain c => c
  | .esc c => if c = 'n' then '\n' else if c = 't' then '\t' else c

/-- A plain piece is neither the delimiter nor a backslash. -/
def StrItem.wellFormed (d : Char) : StrItem → Prop
  | .plain c => c ≠ d ∧ c ≠ '\x5c'
  | .esc _ => True

/-- The source text of a sequence of pieces. -/
def sourceText : List StrItem → List Char
  | [] => []
  | i :: more => i.source ++ sourceText more

/-- The payload of a sequence of pieces. -/
def payloadText : List StrItem → List Char
  | [] => []
  | i :: more => i.value :: payloadText more


/-- Tokens that `ReadLine` can emit in front of the closing `Newline`: every
token but the structural ones, an `Id` only with a payload that the keyword
chain does not recognise. -/
def isLineToken : Token → Bool
  | .Newline => false
  | .Indent => false
  | .Dedent => false
  | .Eof => false
  | .Id s => decide (idToken s = .Id s)
  | _ => true

/-- The twelve reserved words. -/
def reservedWords : List (List Char) :=
  [['c', 'l', 'a', 's', 's'], ['r', 'e', 't', 'u', 'r', 'n'], ['i', 'f'], ['e', 'l', 's', 'e'], ['d', 'e', 'f'],
   ['p', 'r', 'i', 'n', 't'], ['o', 'r'], ['N', 'o', 'n', 'e'], ['a', 'n', 'd'], ['n', 'o', 't'],
   ['T', 'r', 'u', 'e'], ['F', 'a', 'l', 's', 'e']]

/-- The tokens that take the indentation level from `a` to `b`. -/
def bridge (a b : Nat) : List Token :=
  List.replicate (b - a) Token.Indent ++ List.replicate (a - b) Token.Dedent

/-- The buffer contents for a sequence of logical lines, each given by its
indentation level and its tokens in front of the closing `Newline`, when the
level before the first of them is `cur`. -/
def assemble : Nat → List (Nat × List Token) → List Token
  | _, [] => []
  | cur, seg :: more => bridge cur seg.1 ++ seg.2 ++ [Token.Newline] ++ assemble seg.1 more

/-- The indentation level after a sequence of logical lines. -/
def finalLevel : Nat → List (Nat × List Token) → Nat
  | cur, [] => cur
  | _, seg :: more => finalLevel seg.1 more

/-- The indentation levels `CheckAndCutLine` computes for the lines that
`EmptyLine` does not skip. -/
def lineLevels : List (List Char) → List Nat
  | [] => []
  | l :: more =>
    match EmptyLine l, CheckAndCutLine l with
    | .ok false, .ok r => r.1 :: lineLevels more
    | _, _ => lineLevels more

/-- Every `Indent` or `Dedent` in the list follows a `Newline`, `Indent` or
`Dedent`, where `prev` is the token in front of the list. -/
def boundaryFrom : Token → List Token → Bool
  | _, [] => true
  | prev, t :: ts =>
    ((t ≠ .Indent ∧ t ≠ .Dedent) ∨ prev = .Newline ∨ prev = .Indent ∨ prev = .Dedent) &&
      boundaryFrom t ts

/-- Punctuation for which the `switch` of `ReadLine` has no case and which
`ReadId` puts back: the characters of `$%&?@[]^{|}~`, the backslash and the
grave accent. -/
def unhandledPunct (c : Char) : Bool :=
  ispunct c && !(c ∈ ['_', '#', '=', '!', '<', '>', '*', '/', '+', '-', '(', ')', ',', '.',
    ':', ';', '\x27', '\x22'])

/-- A line on which every access of `EmptyLine` and `CheckAndCutLine` is in
range and `ReadLine` never meets unhandled punctuation: it is empty or has a
character other than a space, and none of its characters is unhandled. -/
def goodLine (l : List Char) : Prop :=
  (l = [] ∨ ∃ c ∈ l, c ≠ ' ') ∧ ∀ c ∈ l, unhandledPunct c = false

/-- The last token of the list, or `prev` for the empty list. -/
def lastFrom : Token → List Token → Token
  | prev, [] => prev
  | _, t :: ts => lastFrom t ts

/-- The relation between the state before and after `ReadLineLoop` on the
stream `s` with flag `nl`. -/
def LineOut (s : List Char) (nl : Bool) (lx lx' : Lexer) : Prop :=
  ∃ toks : List Token, (∀ tok ∈ toks, isLineToken tok = true) ∧
    lx' = ⟨lx.line_ ++ toks ++ (if nl || s.any (· ≠ ' ') then [Token.Newline] else []),
            lx.head_, lx.indent_level_⟩

/-! ## Lemmas on the line tokenizer -/

theorem isLineToken_ite {c : Prop} [Decidable c] {a b : Token} (ha : isLineToken a = true)
    (hb : ¬ c → isLineToken b = true) : isLineToken (if c then a else b) = true := by
  by_cases h : c
  · rw [if_pos h]; exact ha
  · rw [if_neg h]; exact hb h

theorem idToken_isLineToken (s : List Char) : isLineToken (idToken s) = true := by
  unfold idToken
  refine isLineToken_ite rfl fun h1 => isLineToken_ite rfl fun h2 => isLineToken_ite rfl fun h3 =>
    isLineToken_ite rfl fun h4 => isLineToken_ite rfl fun h5 => isLineToken_ite rfl fun h6 =>
    isLineToken_ite rfl fun h7 => isLineToken_ite rfl fun h8 => isLineToken_ite rfl fun h9 =>
    isLineToken_ite rfl fun h10 => isLineToken_ite rfl fun h11 => isLineToken_ite rfl fun h12 => ?_
  show decide (idToken s = .Id s) = true
  rw [decide_eq_true_iff]
  unfold idToken
  rw [if_neg h1, if_neg h2, if_neg h3, if_neg h4, if_neg h5, if_neg h6, if_neg h7, if_neg h8,
    if_neg h9, if_neg h10, if_neg h11, if_neg h12]

theorem LineOut_nil {nl : Bool} {lx lx' : Lexer}
    (h : Except.ok (if nl = true then lx.push_back .Newline else lx) = (Except.ok lx' : Except Err Lexer)) :
    LineOut [] nl lx lx' := by
  simp only [Except.ok.injEq] at h
  subst h
  exact ⟨[], by simp, by cases nl <;> simp [Lexer.push_back]⟩

theorem LineOut_space {t : Char} {rest : List Char} {nl : Bool} {lx lx' : Lexer}
    (ht : t = ' ') (h : LineOut rest nl lx lx') : LineOut (t :: rest) nl lx lx' := by
  obtain ⟨toks, h1, h2⟩ := h
  exact ⟨toks, h1, by simpa [ht] using h2⟩

theorem LineOut_skip {t : Char} {rest s' : List Char} {nl : Bool} {lx lx' : Lexer}
    (ht : ¬ t = ' ') (h : LineOut s' true lx lx') : LineOut (t :: rest) nl lx lx' := by
  obtain ⟨toks, h1, h2⟩ := h
  exact ⟨toks, h1, by simpa [ht] using h2⟩

theorem LineOut_push {t : Char} {rest s' : List Char} {nl : Bool} {lx lx' : Lexer}
    {tok : Token} (ht : ¬ t = ' ') (hk : isLineToken tok = true)
    (h : LineOut s' true (lx.push_back tok) lx') : LineOut (t :: rest) nl lx lx' := by
  obtain ⟨toks, h1, h2⟩ := h
  refine ⟨tok :: toks, ?_, ?_⟩
  · intro x hx
    rcases List.mem_cons.1 hx with rfl | hx
    · exact hk
    · exact h1 x hx
  · simpa [ht, Lexer.push_back] using h2

theorem LineOut_hash {t : Char} {rest : List Char} {nl : Bool} {lx lx' : Lexer} (ht : ¬ t = ' ')
    (h : Except.ok (lx.push_back .Newline) = (Except.ok lx' : Except Err Lexer)) :
    LineOut (t :: rest) nl lx lx' := by
  simp only [Except.ok.injEq] at h
  subst h
  exact ⟨[], by simp, by simp [Lexer.push_back, ht]⟩

theorem ReadLineLoop_spec : ∀ (fuel : Nat) (s : List Char) (nl : Bool) (lx lx' : Lexer),
    ReadLineLoop fuel s nl lx = .ok lx' → LineOut s nl lx lx' := by
  intro fuel
  induction fuel with
  | zero =>
    intro s nl lx lx' h
    cases s with
    | nil => exact LineOut_nil (by simpa only [ReadLineLoop] using h)
    | cons t rest => simp [ReadLineLoop] at h
  | succ fuel ih =>
    intro s nl lx lx' h
    cases s with
    | nil => exact LineOut_nil (by simpa only [ReadLineLoop] using h)
    | cons t rest =>
      simp only [ReadLineLoop, ReadNumber, ReadString, ReadId] at h
      split_ifs at h
      all_goals first
        | exact LineOut_space (by assumption) (ih _ _ _ _ h)
        | exact LineOut_hash (by assumption) h
        | (refine LineOut_push ?_ ?_ (ih _ _ _ _ h)
           · assumption
           · first | rfl | exact idToken_isLineToken _)
        | exact LineOut_skip (by assumption) (ih _ _ _ _ h)

/-! ## Lemmas on the line loop of the constructor -/

theorem find_first_drop_any : ∀ (l : List Char) (p r : Nat),
    find_first_not_of_space l = some p → r ≤ p → (l.drop r).any (· ≠ ' ') = true
  | [], p, r, h, _ => by simp [find_first_not_of_space] at h
  | c :: cs, p, r, h, hr => by
    simp only [find_first_not_of_space] at h
    split_ifs at h with hc
    · cases hq : find_first_not_of_space cs with
      | none => simp [hq] at h
      | some q =>
        simp only [hq, Option.map_some', Option.some.injEq] at h
        subst h
        cases r with
        | zero =>
          have := find_first_drop_any cs q 0 hq (Nat.zero_le _)
          simp only [List.drop_zero] at this
          rw [List.drop_zero, List.any_cons, this, Bool.or_true]
        | succ r => simpa using find_first_drop_any cs q r hq (by omega)
    · simp only [Option.some.injEq] at h
      subst h
      have hr0 : r = 0 := by omega
      subst hr0
      simp [hc]

theorem CheckAndCutLine_any {l cut : List Char} {lvl : Nat}
    (h : CheckAndCutLine l = .ok (lvl, cut)) : cut.any (· ≠ ' ') = true := by
  unfold CheckAndCutLine at h
  cases hp : find_first_not_of_space l with
  | none => simp [hp] at h
  | some p =>
    simp only [hp, Except.ok.injEq, Prod.mk.injEq] at h
    obtain ⟨h1, h2⟩ := h
    subst h2
    refine find_first_drop_any l p _ hp ?_
    split_ifs
    · exact Nat.div_le_self p 2
    · exact le_rfl

theorem LexerLoop_segments (fuel : Nat) : ∀ (lines : List (List Char)) (lx lx' : Lexer),
    LexerLoop fuel lines lx = .ok lx' →
    ∃ segs : List (Nat × List Token), segs.map Prod.fst = lineLevels lines ∧
      (∀ seg ∈ segs, ∀ tok ∈ seg.2, isLineToken tok = true) ∧
      lx' = ⟨lx.line_ ++ assemble lx.indent_level_ segs, lx.head_,
              finalLevel lx.indent_level_ segs⟩ := by
  intro lines
  induction lines with
  | nil =>
    intro lx lx' h
    simp only [LexerLoop, Except.ok.injEq] at h
    subst h
    exact ⟨[], rfl, by simp, by simp [assemble, finalLevel]⟩
  | cons l more ih =>
    intro lx lx' h
    unfold LexerLoop at h
    cases hE : EmptyLine l with
    | error e => simp [hE] at h
    | ok skip =>
      cases skip with
      | true =>
        simp only [hE] at h
        obtain ⟨segs, h1, h2, h3⟩ := ih lx lx' h
        exact ⟨segs, by simpa [lineLevels, hE] using h1, h2, h3⟩
      | false =>
        simp only [hE] at h
        cases hC : CheckAndCutLine l with
        | error e => simp [hC] at h
        | ok r =>
          obtain ⟨lvl, cut⟩ := r
          simp only [hC] at h
          cases hR : ReadLine fuel cut (SetIndentLevel lvl lx) with
          | error e => simp [hR] at h
          | ok lx1 =>
            simp only [hR] at h
            obtain ⟨toks, ht, hlx1⟩ := ReadLineLoop_spec fuel cut false _ _ hR
            obtain ⟨segs, h1, h2, h3⟩ := ih lx1 lx' h
            refine ⟨(lvl, toks) :: segs, ?_, ?_, ?_⟩
            · simp [lineLevels, hE, hC, h1]
            · intro seg hseg
              rcases List.mem_cons.1 hseg with rfl | hseg
              · exact ht
              · exact h2 seg hseg
            · have hany : ∃ x ∈ cut, ¬ x = ' ' := by simpa using CheckAndCutLine_any hC
              rw [h3, hlx1]
              simp [hany, SetIndentLevel, assemble, bridge, finalLevel]

theorem tokens_segments {fuel : Nat} {input : List Char} {buf : List Token}
    (h : tokens fuel input = .ok buf) :
    ∃ segs : List (Nat × List Token), segs.map Prod.fst = lineLevels (getlines input) ∧
      (∀ seg ∈ segs, ∀ tok ∈ seg.2, isLineToken tok = true) ∧
      buf = assemble 0 segs ++ bridge (finalLevel 0 segs) 0 ++ [Token.Eof] := by
  unfold tokens Lexer.Lexer at h
  cases hL : LexerLoop fuel (getlines input) Lexer.init with
  | error e => simp [hL, Except.map] at h
  | ok lx =>
    obtain ⟨segs, h1, h2, h3⟩ := LexerLoop_segments fuel _ _ _ hL
    refine ⟨segs, h1, h2, ?_⟩
    simp only [hL, Except.map, Except.ok.injEq] at h
    rw [← h, h3]
    simp [SetIndentLevel, Lexer.push_back, Lexer.init, bridge]

/-! ## Lemmas on assembled buffers -/

theorem mem_bridge {a b : Nat} {t : Token} (h : t ∈ bridge a b) :
    t = .Indent ∨ t = .Dedent := by
  unfold bridge at h
  rcases List.mem_append.1 h with h | h
  · exact Or.inl (List.eq_of_mem_replicate h)
  · exact Or.inr (List.eq_of_mem_replicate h)

theorem mem_assemble {t : Token} : ∀ (segs : List (Nat × List Token)) (cur : Nat),
    t ∈ assemble cur segs →
    t = .Indent ∨ t = .Dedent ∨ t = .Newline ∨ ∃ seg ∈ segs, t ∈ seg.2
  | [], _, h => by simp [assemble] at h
  | seg :: more, cur, h => by
    simp only [assemble, List.mem_append, List.mem_singleton] at h
    rcases h with ((h | h) | h) | h
    · rcases mem_bridge h with h | h
      · exact Or.inl h
      · exact Or.inr (Or.inl h)
    · exact Or.inr (Or.inr (Or.inr ⟨seg, List.mem_cons_self _ _, h⟩))
    · exact Or.inr (Or.inr (Or.inl h))
    · rcases mem_assemble more seg.1 h with h | h | h | ⟨sg, hsg, h⟩
      · exact Or.inl h
      · exact Or.inr (Or.inl h)
      · exact Or.inr (Or.inr (Or.inl h))
      · exact Or.inr (Or.inr (Or.inr ⟨sg, List.mem_cons_of_mem _ hsg, h⟩))

theorem count_lineTokens {toks : List Token} {t : Token} (ht : isLineToken t = false)
    (h : ∀ tok ∈ toks, isLineToken tok = true) : toks.count t = 0 := by
  refine List.count_eq_zero.2 fun hmem => ?_
  rw [h t hmem] at ht
  exact Bool.noConfusion ht

theorem count_bridge_Indent (a b : Nat) : (bridge a b).count .Indent = b - a := by
  simp [bridge, List.count_replicate]

theorem count_bridge_Dedent (a b : Nat) : (bridge a b).count .Dedent = a - b := by
  simp [bridge, List.count_replicate]

theorem count_assemble : ∀ (segs : List (Nat × List Token)) (cur : Nat),
    (∀ seg ∈ segs, ∀ tok ∈ seg.2, isLineToken tok = true) →
    (assemble cur segs).count .Indent + cur =
      (assemble cur segs).count .Dedent + finalLevel cur segs
  | [], cur, _ => by simp [assemble, finalLevel]
  | seg :: more, cur, h => by
    have ih := count_assemble more seg.1 fun sg hsg => h sg (List.mem_cons_of_mem _ hsg)
    have h1 : seg.2.count .Indent = 0 := count_lineTokens rfl (h seg (List.mem_cons_self _ _))
    have h2 : seg.2.count .Dedent = 0 := count_lineTokens rfl (h seg (List.mem_cons_self _ _))
    simp only [assemble, finalLevel, List.count_append, count_bridge_Indent,
      count_bridge_Dedent, h1, h2]
    have h3 : [Token.Newline].count .Indent = 0 := by decide
    have h4 : [Token.Newline].count .Dedent = 0 := by decide
    omega

theorem reserved_not_Id {s : List Char} (hs : s ∈ reservedWords) : idToken s ≠ .Id s := by
  simp only [reservedWords, List.mem_cons, List.mem_singleton, List.not_mem_nil, or_false] at hs
  rcases hs with h | h | h | h | h | h | h | h | h | h | h | h <;> subst h <;> decide

/-! ## Lemmas on lines and on the boundary predicate -/

theorem find_first_replicate_space : ∀ n : Nat,
    find_first_not_of_space (List.replicate n ' ') = none
  | 0 => rfl
  | n + 1 => by
    simp [List.replicate_succ, find_first_not_of_space, find_first_replicate_space n]

theorem find_first_leading_spaces {c : Char} (rest : List Char) (hc : c ≠ ' ') : ∀ n : Nat,
    find_first_not_of_space (List.replicate n ' ' ++ c :: rest) = some n
  | 0 => by simp [find_first_not_of_space, hc]
  | n + 1 => by
    simp [List.replicate_succ, find_first_not_of_space, find_first_leading_spaces rest hc n]

theorem getlinesAux_line : ∀ (c b cur : List Char), '\n' ∉ c →
    getlinesAux (c ++ '\n' :: b) cur = (cur ++ c) :: getlinesAux b []
  | [], b, cur, _ => by simp [getlinesAux]
  | x :: c, b, cur, h => by
    have hx : x ≠ '\n' := fun e => h (by simp [e])
    have hc : '\n' ∉ c := fun e => h (List.mem_cons_of_mem _ e)
    simp [getlinesAux, hx, getlinesAux_line c b (cur ++ [x]) hc]

theorem getlinesAux_append : ∀ (a b cur : List Char),
    getlinesAux (a ++ '\n' :: b) cur = getlinesAux (a ++ ['\n']) cur ++ getlinesAux b []
  | [], b, cur => by simp [getlinesAux]
  | x :: a, b, cur => by
    by_cases hx : x = '\n'
    · simp [getlinesAux, hx, getlinesAux_append a b []]
    · simp [getlinesAux, hx, getlinesAux_append a b (cur ++ [x])]

theorem ReadLineLoop_stuck_at (rest : List Char) : ∀ (fuel : Nat) (nl : Bool) (lx : Lexer),
    ReadLineLoop fuel ('@' :: rest) nl lx = .error .outOfFuel
  | 0, _, _ => rfl
  | fuel + 1, nl, lx => by
    have step : ReadLineLoop (fuel + 1) ('@' :: rest) nl lx =
        ReadLineLoop fuel ('@' :: rest) true (lx.push_back (.Id [])) := rfl
    rw [step]
    exact ReadLineLoop_stuck_at rest fuel true _

theorem lastFrom_append : ∀ (l1 l2 : List Token) (p : Token),
    lastFrom p (l1 ++ l2) = lastFrom (lastFrom p l1) l2
  | [], _, _ => rfl
  | t :: ts, l2, _ => by simp [lastFrom, lastFrom_append ts l2 t]

theorem boundaryFrom_append : ∀ (l1 l2 : List Token) (p : Token),
    boundaryFrom p (l1 ++ l2) = (boundaryFrom p l1 && boundaryFrom (lastFrom p l1) l2)
  | [], l2, p => by simp [boundaryFrom, lastFrom]
  | t :: ts, l2, p => by
    simp [boundaryFrom, lastFrom, boundaryFrom_append ts l2 t, Bool.and_assoc]

theorem boundaryFrom_plain : ∀ (l : List Token) (p : Token),
    (∀ tok ∈ l, tok ≠ .Indent ∧ tok ≠ .Dedent) → boundaryFrom p l = true
  | [], _, _ => rfl
  | t :: ts, p, h => by
    have ht := h t (List.mem_cons_self _ _)
    simp [boundaryFrom, ht, boundaryFrom_plain ts t fun x hx => h x (List.mem_cons_of_mem _ hx)]

theorem boundaryFrom_struct : ∀ (l : List Token) (p : Token),
    (p = .Newline ∨ p = .Indent ∨ p = .Dedent) →
    (∀ tok ∈ l, tok = .Newline ∨ tok = .Indent ∨ tok = .Dedent) →
    boundaryFrom p l = true ∧
      (lastFrom p l = .Newline ∨ lastFrom p l = .Indent ∨ lastFrom p l = .Dedent)
  | [], p, hp, _ => ⟨rfl, hp⟩
  | t :: ts, p, hp, h => by
    have ih := boundaryFrom_struct ts t (h t (List.mem_cons_self _ _))
      fun x hx => h x (List.mem_cons_of_mem _ hx)
    refine ⟨?_, ih.2⟩
    simp only [boundaryFrom, ih.1, Bool.and_true, decide_eq_true_eq]
    exact Or.inr hp

theorem lineToken_plain {toks : List Token} (h : ∀ tok ∈ toks, isLineToken tok = true) :
    ∀ tok ∈ toks, tok ≠ .Indent ∧ tok ≠ .Dedent := by
  intro tok hmem
  have := h tok hmem
  constructor <;> (rintro rfl; exact Bool.noConfusion this)

theorem boundaryFrom_assemble : ∀ (segs : List (Nat × List Token)) (cur : Nat) (p : Token),
    (p = .Newline ∨ p = .Indent ∨ p = .Dedent) →
    (∀ seg ∈ segs, ∀ tok ∈ seg.2, isLineToken tok = true) →
    boundaryFrom p (assemble cur segs) = true ∧
      (lastFrom p (assemble cur segs) = .Newline ∨ lastFrom p (assemble cur segs) = .Indent ∨
        lastFrom p (assemble cur segs) = .Dedent)
  | [], _, p, hp, _ => ⟨rfl, hp⟩
  | seg :: more, cur, p, hp, h => by
    have ih := boundaryFrom_assemble more seg.1 .Newline (Or.inl rfl)
      fun sg hsg => h sg (List.mem_cons_of_mem _ hsg)
    have hb := boundaryFrom_struct (bridge cur seg.1) p hp fun tok htok =>
      (mem_bridge htok).elim (fun e => Or.inr (Or.inl e)) (fun e => Or.inr (Or.inr e))
    have hs := lineToken_plain (h seg (List.mem_cons_self _ _))
    have hl : lastFrom p (bridge cur seg.1 ++ seg.2 ++ [Token.Newline]) = .Newline := by
      rw [lastFrom_append]
      rfl
    constructor
    · rw [assemble, boundaryFrom_append, hl, ih.1, boundaryFrom_append, boundaryFrom_append,
        hb.1, boundaryFrom_plain _ _ hs]
      simp [boundaryFrom]
    · rw [assemble, lastFrom_append, hl]
      exact ih.2

theorem boundaryFrom_pair {p0 p t : Token} {pre post : List Token}
    (h : boundaryFrom p0 (pre ++ p :: t :: post) = true) (ht : t = .Indent ∨ t = .Dedent) :
    p = .Newline ∨ p = .Indent ∨ p = .Dedent := by
  rw [boundaryFrom_append] at h
  simp only [boundaryFrom, Bool.and_eq_true, decide_eq_true_eq] at h
  rcases h.2.2.1 with h1 | h1
  · rcases ht with e | e
    · exact absurd e h1.1
    · exact absurd e h1.2
  · exact h1

theorem LexerLoop_append (fuel : Nat) : ∀ (l1 l2 : List (List Char)) (lx : Lexer),
    LexerLoop fuel (l1 ++ l2) lx = (LexerLoop fuel l1 lx).bind (LexerLoop fuel l2)
  | [], _, _ => rfl
  | l :: l1, l2, lx => by
    rw [List.cons_append]
    unfold LexerLoop
    cases EmptyLine l with
    | error e => rfl
    | ok skip =>
      cases skip with
      | true => exact LexerLoop_append fuel l1 l2 lx
      | false =>
        cases CheckAndCutLine l with
        | error e => rfl
        | ok r =>
          obtain ⟨lvl, cut⟩ := r
          cases hR : ReadLine fuel cut (SetIndentLevel lvl lx) with
          | error e => simp only [hR]; rfl
          | ok lx1 => simp only [hR]; exact LexerLoop_append fuel l1 l2 lx1

theorem LexerLoop_skip (fuel : Nat) {c : List Char} (more : List (List Char)) (lx : Lexer)
    (h : EmptyLine c = .ok true) : LexerLoop fuel (c :: more) lx = LexerLoop fuel more lx := by
  rw [LexerLoop, h]

theorem LexerLoop_insert (fuel : Nat) {c : List Char} (pre post : List (List Char))
    (lx : Lexer) (h : EmptyLine c = .ok true) :
    LexerLoop fuel (pre ++ c :: post) lx = LexerLoop fuel (pre ++ post) lx := by
  rw [LexerLoop_append, LexerLoop_append]
  congr 1
  funext lx1
  exact LexerLoop_skip fuel post lx1 h

theorem get_leading_spaces (c : Char) (text : List Char) : ∀ k : Nat,
    (List.replicate k ' ' ++ c :: text).get? k = some c
  | 0 => rfl
  | k + 1 => by
    rw [List.replicate_succ, List.cons_append, List.get?_cons_succ]
    exact get_leading_spaces c text k

theorem EmptyLine_comment (k : Nat) (text : List Char) :
    EmptyLine (List.replicate k ' ' ++ '#' :: text) = .ok true := by
  have hf := find_first_leading_spaces text (show '#' ≠ ' ' by decide) k
  have hg := get_leading_spaces '#' text k
  unfold EmptyLine
  rw [if_neg (by simp), hf]
  simp only [hg, decide_True, Bool.true_or, if_true]

theorem ReadLineLoop_spaces : ∀ (fuel : Nat) (s : List Char) (nl : Bool) (lx lx' : Lexer),
    (∀ c ∈ s, c = ' ') → ReadLineLoop fuel s nl lx = .ok lx' →
    lx' = if nl = true then lx.push_back .Newline else lx
  | _, [], nl, lx, lx', _, h => by
    cases nl <;> simpa [ReadLineLoop, eq_comm] using h
  | 0, _ :: _, _, _, _, _, h => by simp [ReadLineLoop] at h
  | fuel + 1, t :: rest, nl, lx, lx', hs, h => by
    have ht : t = ' ' := hs t (List.mem_cons_self _ _)
    rw [ReadLineLoop, if_pos ht] at h
    exact ReadLineLoop_spaces fuel rest nl lx lx' (fun c hc => hs c (List.mem_cons_of_mem _ hc)) h

theorem ReadLineLoop_nil (fuel : Nat) (nl : Bool) (lx : Lexer) :
    ReadLineLoop fuel [] nl lx = .ok (if nl = true then lx.push_back .Newline else lx) := by
  cases fuel <;> rfl

theorem ReadLineLoop_fuel_succ : ∀ (fuel : Nat) (s : List Char) (nl : Bool) (lx lx' : Lexer),
    ReadLineLoop fuel s nl lx = .ok lx' → ReadLineLoop (fuel + 1) s nl lx = .ok lx'
  | fuel, [], nl, lx, lx', h => by
    rw [ReadLineLoop_nil] at h ⊢
    exact h
  | 0, _ :: _, _, _, _, h => by simp [ReadLineLoop] at h
  | fuel + 1, t :: rest, nl, lx, lx', h => by
    have ih := ReadLineLoop_fuel_succ fuel
    rw [ReadLineLoop] at h ⊢
    split_ifs at h ⊢
    all_goals first
      | exact h
      | exact ih _ _ _ _ h

theorem ReadLineLoop_fuel_le {fuel fuel' : Nat} (hle : fuel ≤ fuel') {s : List Char} {nl : Bool}
    {lx lx' : Lexer} (h : ReadLineLoop fuel s nl lx = .ok lx') :
    ReadLineLoop fuel' s nl lx = .ok lx' := by
  induction hle with
  | refl => exact h
  | step _ ih => exact ReadLineLoop_fuel_succ _ _ _ _ _ ih

theorem LexerLoop_fuel_le {fuel fuel' : Nat} (hle : fuel ≤ fuel') :
    ∀ (lines : List (List Char)) (lx lx' : Lexer),
    LexerLoop fuel lines lx = .ok lx' → LexerLoop fuel' lines lx = .ok lx'
  | [], _, _, h => h
  | l :: more, lx, lx', h => by
    unfold LexerLoop at h ⊢
    cases hE : EmptyLine l with
    | error e => simp [hE] at h
    | ok skip =>
      cases skip with
      | true =>
        simp only [hE] at h ⊢
        exact LexerLoop_fuel_le hle more lx lx' h
      | false =>
        simp only [hE] at h ⊢
        cases hC : CheckAndCutLine l with
        | error e => simp [hC] at h
        | ok r =>
          obtain ⟨lvl, cut⟩ := r
          simp only [hC] at h ⊢
          cases hR : ReadLine fuel cut (SetIndentLevel lvl lx) with
          | error e => simp [hR] at h
          | ok lx1 =>
            simp only [hR] at h
            have hR' : ReadLine fuel' cut (SetIndentLevel lvl lx) = .ok lx1 :=
              ReadLineLoop_fuel_le hle hR
            simp only [hR']
            exact LexerLoop_fuel_le hle more lx1 lx' h

/-- A buffer obtained with some bound on the iterations of `ReadLine` is
obtained with every larger bound. -/
theorem tokens_fuel_le {fuel fuel' : Nat} (hle : fuel ≤ fuel') {input : List Char}
    {buf : List Token} (h : tokens fuel input = .ok buf) : tokens fuel' input = .ok buf := by
  unfold tokens Lexer.Lexer at h ⊢
  cases hL : LexerLoop fuel (getlines input) Lexer.init with
  | error e => simp [hL, Except.map] at h
  | ok lx =>
    rw [hL] at h
    rw [LexerLoop_fuel_le hle _ _ _ hL]
    exact h

theorem tokens_single_word (fuel : Nat) (w : List Char) (kw : Token)
    (hg : getlines w = [w]) (hE : EmptyLine w = .ok false)
    (hC : CheckAndCutLine w = .ok (0, w))
    (hstep : ∀ lx : Lexer, ReadLineLoop (fuel + 1) w false lx =
      ReadLineLoop fuel [] true (lx.push_back kw)) :
    tokens (fuel + 1) w = .ok [kw, .Newline, .Eof] := by
  unfold tokens Lexer.Lexer
  rw [hg]
  unfold LexerLoop
  simp only [hE, hC, ReadLine, hstep, ReadLineLoop_nil]
  rfl

/-! ## Termination of the line tokenizer away from unhandled punctuation -/

theorem ReadIdLoop_suffix : ∀ (s acc : List Char), (ReadIdLoop s acc).1 <:+ s
  | [], _ => List.suffix_refl _
  | c :: rest, acc => by
    rw [ReadIdLoop]
    split_ifs
    · exact List.suffix_refl _
    · exact List.suffix_cons _ _
    · exact (ReadIdLoop_suffix rest _).trans (List.suffix_cons _ _)

theorem ReadStringLoop_suffix (d : Char) : ∀ (s acc : List Char),
    (ReadStringLoop d s acc).1 <:+ s
  | [], _ => List.suffix_refl _
  | [ch], acc => by
    rw [ReadStringLoop]
    split_ifs <;> simp
  | ch :: c2 :: rest, acc => by
    rw [ReadStringLoop]
    by_cases h1 : ch = d
    · rw [if_pos h1]
      exact List.suffix_cons _ _
    · rw [if_neg h1]
      by_cases h2 : ch = '\x5c'
      · rw [if_pos h2]
        exact (ReadStringLoop_suffix d rest _).trans
          ((List.suffix_cons _ _).trans (List.suffix_cons _ _))
      · rw [if_neg h2]
        exact (ReadStringLoop_suffix d (c2 :: rest) _).trans (List.suffix_cons _ _)

theorem ReadNumber_suffix {t : Char} (rest : List Char) (lx : Lexer) (ht : isdigit t = true) :
    (ReadNumber (t :: rest) lx).1 <:+ rest := by
  rw [ReadNumber]
  split_ifs
  · rw [List.dropWhile_cons_of_pos ht]
    exact List.dropWhile_suffix _
  · simp

theorem ReadId_suffix {t : Char} (rest : List Char) (lx : Lexer)
    (ht : ¬ (ispunct t = true ∧ t ≠ '_')) : (ReadId (t :: rest) lx).1 <:+ rest := by
  rw [ReadId, ReadIdLoop]
  split_ifs with g1 g2
  · exact absurd (by simpa using g2) ht
  · exact List.suffix_refl _
  · exact ReadIdLoop_suffix rest _

theorem progress_intro {fuel : Nat} {rest rest' : List Char} {nl' : Bool} {lx' : Lexer}
    (h : rest' <:+ rest) :
    (∃ lx'', ReadLineLoop fuel rest' nl' lx' = .ok lx'') ∨
    ∃ (r : List Char) (n : Bool) (l : Lexer), r <:+ rest ∧
      ReadLineLoop fuel rest' nl' lx' = ReadLineLoop fuel r n l :=
  Or.inr ⟨_, _, _, h, rfl⟩

theorem ReadLineLoop_progress (t : Char) (rest : List Char) (ht : unhandledPunct t = false)
    (fuel : Nat) (nl : Bool) (lx : Lexer) :
    (∃ lx', ReadLineLoop (fuel + 1) (t :: rest) nl lx = .ok lx') ∨
    ∃ (rest' : List Char) (nl' : Bool) (lx' : Lexer), rest' <:+ rest ∧
      ReadLineLoop (fuel + 1) (t :: rest) nl lx = ReadLineLoop fuel rest' nl' lx' := by
  rw [ReadLineLoop]
  split
  · exact progress_intro (List.suffix_refl _)
  split
  · exact Or.inl ⟨_, rfl⟩
  split
  · next h3 => exact progress_intro (ReadNumber_suffix rest lx h3)
  split
  swap
  · exact progress_intro (List.suffix_refl _)
  split
  · exact progress_intro (List.tail_suffix _)
  split
  · exact progress_intro (List.suffix_refl _)
  split
  · exact progress_intro (ReadStringLoop_suffix t rest [])
  · next h1 h2 h3 h4 h5 h6 h7 =>
    refine progress_intro (ReadId_suffix rest lx ?_)
    rintro ⟨hp1, hp2⟩
    have hu : unhandledPunct t = true := by
      simp only [unhandledPunct, hp1, Bool.true_and, Bool.not_eq_true',
        decide_eq_false_iff_not, List.mem_cons, List.mem_singleton, List.not_mem_nil,
        or_false]
      intro hmem
      rcases hmem with e | e | e | e | e | e | e | e | e | e | e | e | e | e | e | e | e | e
      · exact hp2 e
      · exact h2 e
      all_goals first
        | (apply h6; simp only [e, true_or, or_true]; done)
        | (apply h7; simp only [e, true_or, or_true])
    rw [ht] at hu
    exact Bool.noConfusion hu

theorem ReadLineLoop_returns : ∀ (fuel : Nat) (s : List Char) (nl : Bool) (lx : Lexer),
    s.length ≤ fuel → (∀ c ∈ s, unhandledPunct c = false) →
    ∃ lx', ReadLineLoop fuel s nl lx = .ok lx'
  | fuel, [], nl, lx, _, _ => ⟨_, ReadLineLoop_nil fuel nl lx⟩
  | 0, _ :: _, _, _, hlen, _ => absurd hlen (by simp)
  | fuel + 1, t :: rest, nl, lx, hlen, hs => by
    rcases ReadLineLoop_progress t rest (hs t (List.mem_cons_self _ _)) fuel nl lx with
      h | ⟨rest', nl', lx', hsuf, h⟩
    · exact h
    · rw [h]
      refine ReadLineLoop_returns fuel rest' nl' lx' ?_ fun c hc => ?_
      · have := hsuf.length_le
        simp only [List.length_cons] at hlen
        omega
      · exact hs c (List.mem_cons_of_mem _ (hsuf.subset hc))

theorem find_first_some : ∀ (l : List Char), (∃ c ∈ l, c ≠ ' ') →
    ∃ p, find_first_not_of_space l = some p
  | [], h => by
    obtain ⟨c, hc, -⟩ := h
    exact absurd hc (List.not_mem_nil c)
  | x :: l, h => by
    rw [find_first_not_of_space]
    by_cases hx : x = ' '
    · rw [if_pos hx]
      obtain ⟨c, hc, hne⟩ := h
      rcases List.mem_cons.1 hc with e | hc
      · exact absurd (e ▸ hx) hne
      · obtain ⟨p, hp⟩ := find_first_some l ⟨c, hc, hne⟩
        exact ⟨p + 1, by rw [hp]; rfl⟩
    · rw [if_neg hx]
      exact ⟨0, rfl⟩

theorem EmptyLine_returns {l : List Char} (h : l = [] ∨ ∃ c ∈ l, c ≠ ' ') :
    ∃ skip, EmptyLine l = .ok skip := by
  rcases h with rfl | h
  · exact ⟨true, rfl⟩
  · obtain ⟨p, hp⟩ := find_first_some l h
    unfold EmptyLine
    simp only [hp]
    split_ifs <;> exact ⟨_, rfl⟩

theorem LexerLoop_returns (fuel : Nat) : ∀ (lines : List (List Char)),
    (∀ l ∈ lines, l.length ≤ fuel) → (∀ l ∈ lines, goodLine l) →
    ∀ lx : Lexer, ∃ lx', LexerLoop fuel lines lx = .ok lx'
  | [], _, _, lx => ⟨lx, rfl⟩
  | l :: more, hlen, hgood, lx => by
    have ih := LexerLoop_returns fuel more (fun x hx => hlen x (List.mem_cons_of_mem _ hx))
      (fun x hx => hgood x (List.mem_cons_of_mem _ hx))
    have hl := hgood l (List.mem_cons_self _ _)
    obtain ⟨skip, hE⟩ := EmptyLine_returns hl.1
    unfold LexerLoop
    cases skip with
    | true =>
      simp only [hE]
      exact ih lx
    | false =>
      simp only [hE]
      have hne : ∃ c ∈ l, c ≠ ' ' := by
        rcases hl.1 with rfl | h
        · exact absurd hE (by decide)
        · exact h
      obtain ⟨p, hp⟩ := find_first_some l hne
      have hC : CheckAndCutLine l =
          .ok (if p ≥ 2 then p / 2 else p, l.drop (if p ≥ 2 then p / 2 else p)) := by
        simp [CheckAndCutLine, hp]
      simp only [hC]
      obtain ⟨lx1, hR⟩ := ReadLineLoop_returns fuel (l.drop (if p ≥ 2 then p / 2 else p)) false
        (SetIndentLevel (if p ≥ 2 then p / 2 else p) lx)
        (by
          have := hlen l (List.mem_cons_self _ _)
          simp only [List.length_drop]
          omega)
        (fun c hc => hl.2 c (List.mem_of_mem_drop hc))
      simp only [ReadLine, hR]
      exact ih lx1

theorem getlinesAux_length : ∀ (s cur l : List Char), l ∈ getlinesAux s cur →
    l.length ≤ cur.length + s.length
  | [], cur, l, h => by
    rw [getlinesAux] at h
    split_ifs at h
    · exact absurd h (List.not_mem_nil l)
    · rw [List.mem_singleton.1 h]
      simp
  | c :: cs, cur, l, h => by
    rw [getlinesAux] at h
    split_ifs at h
    · rcases List.mem_cons.1 h with e | h
      · rw [e]
        simp
      · have := getlinesAux_length cs [] l h
        simp only [List.length_nil, List.length_cons, Nat.zero_add] at this ⊢
        omega
    · have := getlinesAux_length cs (cur ++ [c]) l h
      simp only [List.length_append, List.length_nil, List.length_cons] at this ⊢
      omega

/-- Construction returns a buffer, with the length of the input as bound on
the iterations of `ReadLine` per line, when every line of the input is good. -/
theorem tokens_returns (input : List Char) (h : ∀ l ∈ getlines input, goodLine l) :
    ∃ buf, tokens input.length input = .ok buf := by
  obtain ⟨lx, hlx⟩ := LexerLoop_returns input.length (getlines input)
    (fun l hl => by simpa using getlinesAux_length input [] l hl) h Lexer.init
  refine ⟨((SetIndentLevel 0 lx).push_back .Eof).line_, ?_⟩
  simp only [tokens, Lexer.Lexer, hlx]
  rfl

/-! ## The claims -/

/-- C1: whenever the constructor produces a token buffer, the buffer holds
exactly one `Eof` token and that token is its last element. It does produce
one, within `input.length` iterations of `ReadLine` per line, when every line
of the input is good: empty or with a character other than a space, and free
of unhandled punctuation. -/
theorem C1_eof_unique_and_last (fuel : Nat) (input : List Char) (buf : List Token)
    (h : tokens fuel input = .ok buf) :
    (buf.count .Eof = 1 ∧ buf.getLast? = some .Eof) ∧
      ((∀ l ∈ getlines input, goodLine l) → ∃ b, tokens input.length input = .ok b) := by
  refine ⟨?_, tokens_returns input⟩
  obtain ⟨segs, -, hseg, rfl⟩ := tokens_segments h
  constructor
  · have h1 : (assemble 0 segs).count .Eof = 0 := by
      refine List.count_eq_zero.2 fun hmem => ?_
      rcases mem_assemble segs 0 hmem with h | h | h | ⟨sg, hsg, h⟩
      · exact Token.noConfusion h
      · exact Token.noConfusion h
      · exact Token.noConfusion h
      · exact Bool.noConfusion (hseg sg hsg _ h)
    have h2 : (bridge (finalLevel 0 segs) 0).count .Eof = 0 := by
      refine List.count_eq_zero.2 fun hmem => ?_
      rcases mem_bridge hmem with h | h <;> exact Token.noConfusion h
    simp [List.count_append, h1, h2]
  · simp

/-- Witness for C1 on the input `x = 1` followed by a newline. -/
theorem C1_eof_unique_and_last_witness :
    tokens 8 "x = 1\n".toList =
        .ok [.Id ['x'], .Char '=', .Number 1, .Newline, .Eof] ∧
      (List.count Token.Eof [.Id ['x'], .Char '=', .Number 1, .Newline, .Eof] = 1 ∧
        List.getLast? [Token.Id ['x'], .Char '=', .Number 1, .Newline, .Eof] = some .Eof) :=
  ⟨rfl, (C1_eof_unique_and_last 8 "x = 1\n".toList _ rfl).1⟩

/-- C2 (fails on the code): an iteration of the dispatch loop of `ReadLine`
that starts at one of the characters `@`, `[`, `%`, `&` consumes nothing:
`ReadId` puts the character back and appends an `Id` with an empty payload,
and the loop continues from the same stream. Construction on the input `@`
therefore runs out of every bound on the number of iterations. -/
theorem C2_unhandled_punctuation_not_consumed :
    (∀ c ∈ ['@', '[', '%', '&'], ∀ (fuel : Nat) (rest : List Char) (nl : Bool) (lx : Lexer),
        ReadId (c :: rest) lx = (c :: rest, lx.push_back (.Id [])) ∧
        ReadLineLoop (fuel + 1) (c :: rest) nl lx =
          ReadLineLoop fuel (c :: rest) true (lx.push_back (.Id []))) ∧
    (∀ fuel : Nat, tokens fuel ['@'] = .error .outOfFuel) := by
  constructor
  · intro c hc fuel rest nl lx
    simp only [List.mem_cons, List.mem_singleton, List.not_mem_nil, or_false] at hc
    rcases hc with rfl | rfl | rfl | rfl <;> exact ⟨rfl, rfl⟩
  · intro fuel
    have h : LexerLoop fuel (getlines ['@']) Lexer.init = .error .outOfFuel := by
      have hg : getlines ['@'] = [['@']] := rfl
      have hE : EmptyLine ['@'] = .ok false := rfl
      have hC : CheckAndCutLine ['@'] = .ok (0, ['@']) := rfl
      rw [hg]
      unfold LexerLoop
      simp only [hE, hC, ReadLine, ReadLineLoop_stuck_at]
    simp only [tokens, Lexer.Lexer, h]
    rfl

/-- C3: whenever the constructor produces a token buffer, it holds as many
`Indent` as `Dedent` tokens; the closing `SetIndentLevel(0)` appends one
`Dedent` per open level and leaves the level at 0. -/
theorem C3_indent_dedent_balance (fuel : Nat) (input : List Char) (buf : List Token)
    (h : tokens fuel input = .ok buf) :
    (buf.count .Indent : Int) - (buf.count .Dedent : Int) = 0 ∧
      ∀ lx : Lexer, SetIndentLevel 0 lx =
        ⟨lx.line_ ++ List.replicate lx.indent_level_ Token.Dedent, lx.head_, 0⟩ := by
  obtain ⟨segs, -, hseg, rfl⟩ := tokens_segments h
  constructor
  · have h1 := count_assemble segs 0 hseg
    have h3 : [Token.Eof].count .Indent = 0 := by decide
    have h4 : [Token.Eof].count .Dedent = 0 := by decide
    simp only [List.count_append, count_bridge_Indent, count_bridge_Dedent, h3, h4]
    omega
  · intro lx
    simp [SetIndentLevel]

/-- Witness for C3 on a two-line input with one indented block. -/
theorem C3_indent_dedent_balance_witness :
    tokens 8 "if x:\n  return 1\n".toList =
        .ok [.If, .Id ['x'], .Char ':', .Newline, .Indent, .Return, .Number 1, .Newline,
             .Dedent, .Eof] ∧
      ((List.count Token.Indent [.If, .Id ['x'], .Char ':', .Newline, .Indent, .Return,
          .Number 1, .Newline, .Dedent, .Eof] : Int) -
        (List.count Token.Dedent [.If, .Id ['x'], .Char ':', .Newline, .Indent, .Return,
          .Number 1, .Newline, .Dedent, .Eof] : Int) = 0) :=
  ⟨rfl, (C3_indent_dedent_balance 8 "if x:\n  return 1\n".toList _ rfl).1⟩

/-- C4 as stated fails: a line that is not skipped and has one leading space
gets level 1, not 1 / 2 = 0. -/
theorem C4_one_leading_space_counterexample :
    ¬ (∀ (n : Nat) (c : Char) (rest : List Char), c ≠ ' ' →
        EmptyLine (List.replicate n ' ' ++ c :: rest) = .ok false →
        (CheckAndCutLine (List.replicate n ' ' ++ c :: rest)).map Prod.fst = .ok (n / 2)) := by
  intro h
  have := h 1 'x' ['y'] (by decide) rfl
  exact absurd this (by decide)

/-- C4 (amended): for a line with `n` leading spaces in front of a character
that is not a space, `CheckAndCutLine` returns the level `n / 2` when
`2 ≤ n` and `n` itself otherwise (0 for no leading space, 1 for one), and it
cuts that many characters off the line; `IndentLevelOfLine` computes the
same level. -/
theorem C4_indent_level (n : Nat) (c : Char) (rest : List Char) (hc : c ≠ ' ') :
    CheckAndCutLine (List.replicate n ' ' ++ c :: rest) =
        .ok (if 2 ≤ n then n / 2 else n,
             (List.replicate n ' ' ++ c :: rest).drop (if 2 ≤ n then n / 2 else n)) ∧
      IndentLevelOfLine (List.replicate n ' ' ++ c :: rest) =
        some (if 2 ≤ n then n / 2 else n) := by
  simp [CheckAndCutLine, IndentLevelOfLine, find_first_leading_spaces rest hc n]

/-- Witness for C4 (amended) at five leading spaces. -/
theorem C4_indent_level_witness :
    ('r' ≠ ' ') ∧
      CheckAndCutLine "     return".toList = .ok (2, "   return".toList) ∧
      IndentLevelOfLine "     return".toList = some 2 :=
  ⟨by decide, C4_indent_level 5 'r' "eturn".toList (by decide)⟩

/-- C5: in a buffer the constructor produces, every `Indent` or `Dedent` that
is not the first token directly follows a `Newline`, `Indent` or `Dedent`.
The buffer is the concatenation, over the lines that are not skipped, of the
tokens bridging the previous level (0 at the start) to the level of the line,
the tokens of the line, none of them structural, and one `Newline`; it ends
with the bridge back to level 0 and `Eof`. A bridge from `a` to `b` is
`b - a` times `Indent` when `a < b`, `a - b` times `Dedent` when `b < a`, and
empty when `a = b`. The example of the claim evaluates as stated. -/
theorem C5_indents_at_line_boundaries (fuel : Nat) (input : List Char) (buf : List Token)
    (h : tokens fuel input = .ok buf) :
    (∀ (pre post : List Token) (p t : Token), buf = pre ++ p :: t :: post →
        (t = .Indent ∨ t = .Dedent) → (p = .Newline ∨ p = .Indent ∨ p = .Dedent)) ∧
    (∃ segs : List (Nat × List Token),
        segs.map Prod.fst = lineLevels (getlines input) ∧
        (∀ seg ∈ segs, ∀ tok ∈ seg.2, isLineToken tok = true) ∧
        buf = assemble 0 segs ++ bridge (finalLevel 0 segs) 0 ++ [Token.Eof]) ∧
    (∀ a b : Nat, (a < b → bridge a b = List.replicate (b - a) Token.Indent) ∧
        (b < a → bridge a b = List.replicate (a - b) Token.Dedent) ∧
        (a = b → bridge a b = [])) ∧
    tokens 8 "if x:\n  return 1\n".toList =
      .ok [.If, .Id ['x'], .Char ':', .Newline, .Indent, .Return, .Number 1, .Newline,
           .Dedent, .Eof] := by
  obtain ⟨segs, hlv, hseg, hbuf⟩ := tokens_segments h
  refine ⟨?_, ⟨segs, hlv, hseg, hbuf⟩, ?_, rfl⟩
  · intro pre post p t hdec ht
    have ha := boundaryFrom_assemble segs 0 .Newline (Or.inl rfl) hseg
    have hb := boundaryFrom_struct (bridge (finalLevel 0 segs) 0) _ ha.2 fun tok htok =>
      (mem_bridge htok).elim (fun e => Or.inr (Or.inl e)) (fun e => Or.inr (Or.inr e))
    have hall : boundaryFrom .Newline buf = true := by
      rw [hbuf, boundaryFrom_append, boundaryFrom_append, ha.1, hb.1]
      simp [boundaryFrom]
    rw [hdec] at hall
    exact boundaryFrom_pair hall ht
  · intro a b
    refine ⟨fun hab => ?_, fun hab => ?_, fun hab => ?_⟩
    · simp [bridge, Nat.sub_eq_zero_of_le hab.le]
    · simp [bridge, Nat.sub_eq_zero_of_le hab.le]
    · simp [bridge, hab]

/-- Witness for C5 on the example of the claim. -/
theorem C5_indents_at_line_boundaries_witness :
    ∃ segs : List (Nat × List Token),
      segs.map Prod.fst = lineLevels (getlines "if x:\n  return 1\n".toList) ∧
      (∀ seg ∈ segs, ∀ tok ∈ seg.2, isLineToken tok = true) ∧
      [Token.If, .Id ['x'], .Char ':', .Newline, .Indent, .Return, .Number 1, .Newline,
        .Dedent, .Eof] = assemble 0 segs ++ bridge (finalLevel 0 segs) 0 ++ [Token.Eof] :=
  (C5_indents_at_line_boundaries 8 "if x:\n  return 1\n".toList _ rfl).2.1

/-- C6: a line that is empty, or that consists of spaces followed by `#` and
any text, is skipped by the line loop without a change of state; inserting it
at any position in the list of lines, or as a line of its own at the start of
the input or after any newline of it, leaves the result of construction
unchanged. The example of the claim evaluates as stated. -/
theorem C6_blank_or_comment_line_insertion (fuel : Nat) (a b c : List Char)
    (ha : a = [] ∨ ∃ a0 : List Char, a = a0 ++ ['\n'])
    (hc : c = [] ∨ ∃ (k : Nat) (text : List Char), c = List.replicate k ' ' ++ '#' :: text)
    (hn : '\n' ∉ c) :
    Lexer.Lexer fuel (a ++ c ++ '\n' :: b) = Lexer.Lexer fuel (a ++ b) ∧
    (∀ lx : Lexer, LexerLoop fuel [c] lx = .ok lx) ∧
    (∀ (pre post : List (List Char)) (lx : Lexer),
        LexerLoop fuel (pre ++ c :: post) lx = LexerLoop fuel (pre ++ post) lx) ∧
    tokens fuel "  # comment only\n".toList = .ok [.Eof] := by
  have hE : EmptyLine c = .ok true := by
    rcases hc with rfl | ⟨k, text, rfl⟩
    · rfl
    · exact EmptyLine_comment k text
  have hlines : getlines (a ++ c ++ '\n' :: b) = getlines a ++ c :: getlines b ∧
      getlines (a ++ b) = getlines a ++ getlines b := by
    have hcb : getlinesAux (c ++ '\n' :: b) [] = c :: getlinesAux b [] := by
      simpa using getlinesAux_line c b [] hn
    rcases ha with rfl | ⟨a0, rfl⟩
    · exact ⟨by simpa [getlines, getlinesAux] using hcb, by simp [getlines, getlinesAux]⟩
    · unfold getlines
      constructor
      · have := getlinesAux_append a0 (c ++ '\n' :: b) []
        rw [hcb] at this
        simpa only [List.append_assoc, List.singleton_append, List.cons_append] using this
      · have := getlinesAux_append a0 b []
        simp only [List.append_assoc, List.singleton_append] at this ⊢
        exact this
  refine ⟨?_, fun lx => ?_, fun pre post lx => LexerLoop_insert fuel pre post lx hE, ?_⟩
  · unfold Lexer.Lexer
    rw [hlines.1, hlines.2, LexerLoop_insert fuel _ _ _ hE]
  · rw [LexerLoop_skip fuel [] lx hE]
    rfl
  · rfl

/-- Witness for C6: a comment line inserted between the two lines of the
example of C5. -/
theorem C6_blank_or_comment_line_insertion_witness :
    Lexer.Lexer 8 ("if x:\n".toList ++ " # note".toList ++ '\n' :: "  return 1\n".toList) =
      Lexer.Lexer 8 ("if x:\n".toList ++ "  return 1\n".toList) :=
  (C6_blank_or_comment_line_insertion 8 "if x:\n".toList "  return 1\n".toList
    " # note".toList (Or.inr ⟨"if x:".toList, rfl⟩) (Or.inr ⟨1, " note".toList, rfl⟩)
    (by decide)).1

/-- C7 (fails on the code): for a line of `k + 1` spaces `EmptyLine` reads
`line[npos]`, out of range, and `CheckAndCutLine` calls `substr` with a
position beyond the size of the line; construction on an input that starts
with such a line fails, while the input without that line is lexed. -/
theorem C7_spaces_only_line_out_of_range (k fuel : Nat) (more : List Char) :
    EmptyLine (List.replicate (k + 1) ' ') = .error .outOfRange ∧
    CheckAndCutLine (List.replicate (k + 1) ' ') = .error .outOfRange ∧
    tokens fuel (List.replicate (k + 1) ' ' ++ '\n' :: more) = .error .outOfRange ∧
    tokens 8 "  \nx = 1\n".toList = .error .outOfRange ∧
    tokens 8 "x = 1\n".toList = .ok [.Id ['x'], .Char '=', .Number 1, .Newline, .Eof] := by
  have hE : EmptyLine (List.replicate (k + 1) ' ') = .error .outOfRange := by
    simp [EmptyLine, find_first_replicate_space]
  refine ⟨hE, ?_, ?_, rfl, rfl⟩
  · simp [CheckAndCutLine, find_first_replicate_space]
  · have hl : getlines (List.replicate (k + 1) ' ' ++ '\n' :: more) =
        List.replicate (k + 1) ' ' :: getlines more := by
      unfold getlines
      rw [getlinesAux_line _ _ _ (by simp [List.mem_replicate])]
      simp
    simp [tokens, Lexer.Lexer, hl, LexerLoop, hE, Except.map]

/-- C8 as stated fails: a line that holds only the byte 1, neither printable
nor whitespace, makes `ReadLine` append a `Newline` and no other token. -/
theorem C8_ignored_byte_counterexample :
    ReadLine 1 [Char.ofNat 1] Lexer.init = .ok ⟨[.Newline], 0, 0⟩ ∧
      tokens 1 [Char.ofNat 1] = .ok [.Newline, .Eof] :=
  ⟨rfl, rfl⟩

/-- C8 (amended): when `ReadLine` returns, it has appended zero or more
value, operator or keyword tokens followed by exactly one `Newline` if and
only if the line holds at least one character other than a space; a line
from which a token was appended is such a line. A byte that is neither a
digit nor printable nor whitespace is skipped without a token, and it sets
the flag that makes the loop close the line with a `Newline`. -/
theorem C8_line_tokens_then_newline (fuel : Nat) (s : List Char) (lx lx' : Lexer)
    (h : ReadLine fuel s lx = .ok lx') :
    (∃ toks : List Token, (∀ tok ∈ toks, isLineToken tok = true) ∧
        lx' = ⟨lx.line_ ++ toks ++ (if s.any (· ≠ ' ') then [Token.Newline] else []),
                lx.head_, lx.indent_level_⟩ ∧
        (toks ≠ [] → s.any (· ≠ ' ') = true)) ∧
    (∀ (t : Char) (rest : List Char) (nl : Bool) (n : Nat) (st : Lexer),
        isprint t = false → isspace t = false →
        ReadLineLoop (n + 1) (t :: rest) nl st = ReadLineLoop n rest true st) := by
  constructor
  · obtain ⟨toks, h1, h2⟩ := ReadLineLoop_spec fuel s false lx lx' h
    refine ⟨toks, h1, by simpa using h2, fun hne => ?_⟩
    by_contra hany
    have hsp : ∀ c ∈ s, c = ' ' := by simpa using hany
    have h3 := ReadLineLoop_spaces fuel s false lx lx' hsp h
    rw [h2] at h3
    have h4 := congrArg Lexer.line_ h3
    have hany' : ¬ ∃ x ∈ s, ¬ x = ' ' := by simpa using hsp
    simp [hany'] at h4
    exact hne h4
  · intro t rest nl n st h4 h5
    have h1 : ¬ t = ' ' := by
      rintro rfl
      exact absurd h4 (by decide)
    have h2 : ¬ t = '#' := by
      rintro rfl
      exact absurd h4 (by decide)
    have h3 : ¬ isdigit t = true := by
      simp only [isprint, isdigit, Bool.and_eq_false_iff, Bool.and_eq_true,
        decide_eq_false_iff_not, decide_eq_true_eq] at h4 ⊢
      omega
    rw [ReadLineLoop, if_neg h1, if_neg h2, if_neg h3, if_neg (by simp [h4, h5])]

/-- Witness for C8 (amended) on a line with a trailing comment. -/
theorem C8_line_tokens_then_newline_witness :
    ReadLine 8 "x = 1 # one".toList Lexer.init =
        .ok ⟨[.Id ['x'], .Char '=', .Number 1, .Newline], 0, 0⟩ ∧
      ∃ toks : List Token, (∀ tok ∈ toks, isLineToken tok = true) ∧
        (⟨[.Id ['x'], .Char '=', .Number 1, .Newline], 0, 0⟩ : Lexer) =
          ⟨Lexer.init.line_ ++ toks ++
              (if "x = 1 # one".toList.any (· ≠ ' ') then [Token.Newline] else []),
            Lexer.init.head_, Lexer.init.indent_level_⟩ ∧
        (toks ≠ [] → "x = 1 # one".toList.any (· ≠ ' ') = true) :=
  ⟨rfl, (C8_line_tokens_then_newline 8 "x = 1 # one".toList Lexer.init _ rfl).1⟩

/-- C9 as stated fails: `ReadLine` appends a `Newline` at a `#` although no
token was produced on the line, both when called on a line that starts with
`#` and, inside the constructor, on a line where only an ignored byte
precedes the `#`. -/
theorem C9_newline_without_token_counterexample :
    ReadLine 1 "# c".toList Lexer.init = .ok ⟨[.Newline], 0, 0⟩ ∧
      tokens 2 (Char.ofNat 1 :: "# c".toList) = .ok [.Newline, .Eof] :=
  ⟨rfl, rfl⟩

/-- C9 (amended): whenever the dispatch loop of `ReadLine` reads a `#`, it
keeps the tokens appended so far, appends exactly one `Newline` and returns,
whatever follows the `#` and whether or not a token was produced on the
line. -/
theorem C9_hash_closes_line (fuel : Nat) (rest : List Char) (nl : Bool) (lx : Lexer) :
    ReadLineLoop (fuel + 1) ('#' :: rest) nl lx = .ok (lx.push_back .Newline) ∧
      (lx.push_back .Newline).line_ = lx.line_ ++ [.Newline] :=
  ⟨rfl, rfl⟩

/-- C10: lexing a reserved word alone yields its keyword token, `Newline`
and `Eof`; and no `Id` token of a buffer the constructor produces has a
reserved word as payload. -/
theorem C10_keywords :
    (∀ fuel : Nat, ∀ p ∈ [("class".toList, Token.Class), ("return".toList, Token.Return),
        ("if".toList, Token.If), ("else".toList, Token.Else), ("def".toList, Token.Def),
        ("print".toList, Token.Print), ("or".toList, Token.Or), ("None".toList, Token.None),
        ("and".toList, Token.And), ("not".toList, Token.Not), ("True".toList, Token.True),
        ("False".toList, Token.False)],
        p.1 ∈ reservedWords ∧ tokens (fuel + 1) p.1 = .ok [p.2, .Newline, .Eof]) ∧
    (∀ (fuel : Nat) (input : List Char) (buf : List Token), tokens fuel input = .ok buf →
        ∀ s : List Char, Token.Id s ∈ buf → s ∉ reservedWords) := by
  constructor
  · intro fuel p hp
    simp only [List.mem_cons, List.mem_singleton, List.not_mem_nil, or_false] at hp
    rcases hp with h | h | h | h | h | h | h | h | h | h | h | h <;> subst h <;>
      exact ⟨by decide, tokens_single_word fuel _ _ rfl rfl rfl fun _ => rfl⟩
  · intro fuel input buf h s hs hres
    obtain ⟨segs, -, hseg, rfl⟩ := tokens_segments h
    simp only [List.mem_append, List.mem_singleton] at hs
    rcases hs with (hs | hs) | hs
    · rcases mem_assemble segs 0 hs with e | e | e | ⟨sg, hsg, e⟩
      · exact Token.noConfusion e
      · exact Token.noConfusion e
      · exact Token.noConfusion e
      · have := hseg sg hsg _ e
        simp only [isLineToken, decide_eq_true_eq] at this
        exact reserved_not_Id hres this
    · rcases mem_bridge hs with e | e <;> exact Token.noConfusion e
    · exact Token.noConfusion hs

/-- Witness for C10: the identifier `classes` stays an `Id`, and its payload
is not a reserved word. -/
theorem C10_keywords_witness :
    tokens 8 "classes".toList = .ok [.Id "classes".toList, .Newline, .Eof] ∧
      "classes".toList ∉ reservedWords :=
  ⟨rfl, C10_keywords.2 8 "classes".toList _ rfl "classes".toList (by decide)⟩

/-! ## Lemmas on the number and string readers -/

theorem digitsValue_foldl : ∀ (ds : List Char) (v : Nat),
    ds.foldl (fun v c => 10 * v + (c.toNat - 48)) v = v * 10 ^ ds.length + decimalValue ds
  | [], v => by simp [decimalValue]
  | c :: cs, v => by
    rw [List.foldl_cons, digitsValue_foldl cs, decimalValue, List.length_cons]
    ring

theorem digitsValue_eq_decimalValue (ds : List Char) : digitsValue ds = decimalValue ds := by
  rw [digitsValue, digitsValue_foldl]
  simp

theorem digit_run : ∀ (ds rest : List Char), (∀ c ∈ ds, isdigit c = true) →
    (∀ c, rest.head? = some c → isdigit c = false) →
    (ds ++ rest).takeWhile isdigit = ds ∧ (ds ++ rest).dropWhile isdigit = rest
  | [], [], _, _ => ⟨rfl, rfl⟩
  | [], c :: rest, _, h => by
    have hc := h c rfl
    simp [List.takeWhile, List.dropWhile, hc]
  | d :: ds, rest, hds, h => by
    have hd := hds d (List.mem_cons_self _ _)
    have ih := digit_run ds rest (fun c hc => hds c (List.mem_cons_of_mem _ hc)) h
    simp [List.takeWhile, List.dropWhile, hd, ih.1, ih.2]

theorem sourceText_tail_cons (body : List StrItem) (d : Char) (rest : List Char) :
    ∃ x xs, sourceText body ++ d :: rest = x :: xs := by
  cases h : sourceText body ++ d :: rest with
  | nil => simp at h
  | cons x xs => exact ⟨x, xs, rfl⟩

theorem ReadStringLoop_closed (d : Char) (hd : d ≠ '\x5c') (rest : List Char) :
    ∀ (body : List StrItem) (acc : List Char), (∀ i ∈ body, i.wellFormed d) →
    ReadStringLoop d (sourceText body ++ d :: rest) acc = (rest, acc ++ payloadText body)
  | [], acc, _ => by
    cases rest with
    | nil => simp [sourceText, payloadText, ReadStringLoop]
    | cons c2 r => simp [sourceText, payloadText, ReadStringLoop]
  | .plain c :: more, acc, h => by
    have hc : c ≠ d ∧ c ≠ '\x5c' := h (.plain c) (List.mem_cons_self _ _)
    have ih := ReadStringLoop_closed d hd rest more (acc ++ [c])
      fun i hi => h i (List.mem_cons_of_mem _ hi)
    obtain ⟨x, xs, hx⟩ := sourceText_tail_cons more d rest
    simp only [sourceText, StrItem.source, payloadText, StrItem.value, List.singleton_append,
      List.cons_append, List.nil_append]
    rw [hx] at ih ⊢
    rw [ReadStringLoop, if_neg hc.1, if_neg hc.2, ih]
    simp
  | .esc c :: more, acc, h => by
    have ih := ReadStringLoop_closed d hd rest more
      (acc ++ [if c = 'n' then '\n' else if c = 't' then '\t' else c])
      fun i hi => h i (List.mem_cons_of_mem _ hi)
    simp only [sourceText, StrItem.source, payloadText, StrItem.value, List.cons_append,
      List.nil_append]
    rw [ReadStringLoop, if_neg (Ne.symm hd), if_pos rfl, ih]
    simp

theorem ReadStringLoop_open (d : Char) (hd : d ≠ '\x5c') (trail : List Char)
    (htrail : trail = [] ∨ trail = ['\x5c']) :
    ∀ (body : List StrItem) (acc : List Char), (∀ i ∈ body, i.wellFormed d) →
    ReadStringLoop d (sourceText body ++ trail) acc = ([], acc ++ payloadText body ++ trail)
  | [], acc, _ => by
    rcases htrail with rfl | rfl
    · simp [sourceText, payloadText, ReadStringLoop]
    · simp [sourceText, payloadText, ReadStringLoop, Ne.symm hd]
  | .plain c :: more, acc, h => by
    have hc : c ≠ d ∧ c ≠ '\x5c' := h (.plain c) (List.mem_cons_self _ _)
    have ih := ReadStringLoop_open d hd trail htrail more (acc ++ [c])
      fun i hi => h i (List.mem_cons_of_mem _ hi)
    simp only [sourceText, StrItem.source, payloadText, StrItem.value, List.singleton_append,
      List.cons_append, List.nil_append]
    cases hx : sourceText more ++ trail with
    | nil =>
      have h1 : sourceText more = [] := (List.append_eq_nil.1 hx).1
      have h2 : trail = [] := (List.append_eq_nil.1 hx).2
      have h3 : payloadText more = [] := by
        cases more with
        | nil => rfl
        | cons i is => cases i <;> simp [sourceText, StrItem.source] at h1
      simp [ReadStringLoop, hc.1, h2, h3]
    | cons x xs =>
      rw [hx] at ih
      rw [ReadStringLoop, if_neg hc.1, if_neg hc.2, ih]
      simp
  | .esc c :: more, acc, h => by
    have ih := ReadStringLoop_open d hd trail htrail more
      (acc ++ [if c = 'n' then '\n' else if c = 't' then '\t' else c])
      fun i hi => h i (List.mem_cons_of_mem _ hi)
    simp only [sourceText, StrItem.source, payloadText, StrItem.value, List.cons_append,
      List.nil_append]
    rw [ReadStringLoop, if_neg (Ne.symm hd), if_pos rfl, ih]
    simp

theorem string_text_cases (d : Char) : ∀ (n : Nat) (s : List Char), s.length ≤ n →
    ∃ body : List StrItem, (∀ i ∈ body, i.wellFormed d) ∧
      ((∃ rest, s = sourceText body ++ d :: rest) ∨
        ∃ trail, (trail = [] ∨ trail = ['\x5c']) ∧ s = sourceText body ++ trail)
  | _, [], _ => ⟨[], by simp, Or.inr ⟨[], Or.inl rfl, rfl⟩⟩
  | 0, _ :: _, h => absurd h (by simp)
  | n + 1, c :: s, h => by
    have hlen : s.length ≤ n := by simpa using h
    by_cases hcd : c = d
    · exact ⟨[], by simp, Or.inl ⟨s, by simp [sourceText, hcd]⟩⟩
    by_cases hcb : c = '\x5c'
    · cases s with
      | nil => exact ⟨[], by simp, Or.inr ⟨['\x5c'], Or.inr rfl, by simp [sourceText, hcb]⟩⟩
      | cons c2 s2 =>
        have hlen2 : s2.length ≤ n := by
          simp only [List.length_cons] at hlen
          omega
        obtain ⟨body, hb, hs⟩ := string_text_cases d n s2 hlen2
        refine ⟨.esc c2 :: body, ?_, ?_⟩
        · intro i hi
          rcases List.mem_cons.1 hi with rfl | hi
          · trivial
          · exact hb i hi
        · rcases hs with ⟨rest, hr⟩ | ⟨trail, ht, hr⟩
          · exact Or.inl ⟨rest, by simp [sourceText, StrItem.source, hcb, hr]⟩
          · exact Or.inr ⟨trail, ht, by simp [sourceText, StrItem.source, hcb, hr]⟩
    · obtain ⟨body, hb, hs⟩ := string_text_cases d n s hlen
      refine ⟨.plain c :: body, ?_, ?_⟩
      · intro i hi
        rcases List.mem_cons.1 hi with rfl | hi
        · exact ⟨hcd, hcb⟩
        · exact hb i hi
      · rcases hs with ⟨rest, hr⟩ | ⟨trail, ht, hr⟩
        · exact Or.inl ⟨rest, by simp [sourceText, StrItem.source, hr]⟩
        · exact Or.inr ⟨trail, ht, by simp [sourceText, StrItem.source, hr]⟩

theorem tokens_single_line (fuel : Nat) (input w : List Char) (kw : Token)
    (hg : getlines input = [w]) (hE : EmptyLine w = .ok false)
    (hC : CheckAndCutLine w = .ok (0, w))
    (hstep : ∀ lx : Lexer, ReadLineLoop (fuel + 1) w false lx =
      ReadLineLoop fuel [] true (lx.push_back kw)) :
    tokens (fuel + 1) input = .ok [kw, .Newline, .Eof] := by
  unfold tokens Lexer.Lexer
  rw [hg]
  unfold LexerLoop
  simp only [hE, hC, ReadLine, hstep, ReadLineLoop_nil]
  rfl

/-- C11: when the dispatch loop of `ReadLine` reads one of `=`, `!`, `<`, `>`
and the next character is `=`, it consumes both characters and appends the one
token `Eq`, `NotEq`, `LessOrEq` or `GreaterOrEq`, and no `Char` token. The two
examples of the claim evaluate as stated. -/
theorem C11_two_character_operators (fuel : Nat) (rest : List Char) (nl : Bool) (lx : Lexer) :
    ReadLineLoop (fuel + 1) ('=' :: '=' :: rest) nl lx =
        ReadLineLoop fuel rest true (lx.push_back .Eq) ∧
    ReadLineLoop (fuel + 1) ('!' :: '=' :: rest) nl lx =
        ReadLineLoop fuel rest true (lx.push_back .NotEq) ∧
    ReadLineLoop (fuel + 1) ('<' :: '=' :: rest) nl lx =
        ReadLineLoop fuel rest true (lx.push_back .LessOrEq) ∧
    ReadLineLoop (fuel + 1) ('>' :: '=' :: rest) nl lx =
        ReadLineLoop fuel rest true (lx.push_back .GreaterOrEq) ∧
    tokens (fuel + 1) "<=".toList = .ok [.LessOrEq, .Newline, .Eof] ∧
    tokens (fuel + 4) "a == b\n".toList =
        .ok [.Id ['a'], .Eq, .Id ['b'], .Newline, .Eof] :=
  ⟨rfl, rfl, rfl, rfl, tokens_single_word fuel _ _ rfl rfl rfl fun _ => rfl,
    tokens_fuel_le (Nat.le_add_left 4 fuel) rfl⟩

/-- C12: for a quote character `d` and a text made of pieces, each a
character other than `d` and the backslash or a backslash with the character
after it, followed by `d`, `ReadString` appends the one `String` token whose
payload has, piece by piece, the plain character, a newline for backslash-n,
a tab for backslash-t and the second character of every other pair; the
stream it leaves starts right after that `d`, and so does the next iteration
of the dispatch loop. The example of the claim evaluates as stated. -/
theorem C12_string_literal (d : Char) (hd : d = '\x27' ∨ d = '\x22') (body : List StrItem)
    (hbody : ∀ i ∈ body, i.wellFormed d) (rest : List Char) (fuel : Nat) (nl : Bool)
    (lx : Lexer) :
    ReadString (sourceText body ++ d :: rest) d lx =
        (rest, lx.push_back (.String (payloadText body))) ∧
    ReadLineLoop (fuel + 1) (d :: (sourceText body ++ d :: rest)) nl lx =
        ReadLineLoop fuel rest true (lx.push_back (.String (payloadText body))) ∧
    tokens (fuel + 1) ['\x27', 'a', '\x5c', 'n', 'b', '\x27'] =
        .ok [.String ['a', '\n', 'b'], .Newline, .Eof] ∧
    tokens (fuel + 1) ['\x27', 'a', '\x5c', 'n', 'b', '\x27', '\n'] =
        .ok [.String ['a', '\n', 'b'], .Newline, .Eof] := by
  have hne : d ≠ '\x5c' := by
    rcases hd with rfl | rfl <;> decide
  have hR : ReadString (sourceText body ++ d :: rest) d lx =
      (rest, lx.push_back (.String (payloadText body))) := by
    rw [ReadString, ReadStringLoop_closed d hne rest body [] hbody]
    rfl
  refine ⟨hR, ?_, tokens_single_word fuel _ _ rfl rfl rfl fun _ => rfl,
    tokens_single_line fuel _ _ _ rfl rfl rfl fun _ => rfl⟩
  have hstep : ReadLineLoop (fuel + 1) (d :: (sourceText body ++ d :: rest)) nl lx =
      ReadLineLoop fuel (ReadString (sourceText body ++ d :: rest) d lx).1 true
        (ReadString (sourceText body ++ d :: rest) d lx).2 := by
    rcases hd with rfl | rfl <;> rfl
  rw [hstep, hR]

/-- Witness for C12 on the text `it\'s` between single quotes. -/
theorem C12_string_literal_witness :
    ReadString ['i', 't', '\x5c', '\x27', 's', '\x27', ' ', '+'] '\x27' Lexer.init =
      ([' ', '+'], Lexer.init.push_back (.String ['i', 't', '\x27', 's'])) :=
  (C12_string_literal '\x27' (Or.inl rfl) [.plain 'i', .plain 't', .esc '\x27', .plain 's']
    (by
      intro i hi
      simp only [List.mem_cons, List.mem_singleton, List.not_mem_nil, or_false] at hi
      rcases hi with rfl | rfl | rfl | rfl
      · exact ⟨by decide, by decide⟩
      · exact ⟨by decide, by decide⟩
      · trivial
      · exact ⟨by decide, by decide⟩)
    [' ', '+'] 0 false Lexer.init).1

/-- C13 as stated fails: the string reader sees the current line only. On
two lines, the first with an opening quote and no closing one, the `String`
token holds the rest of the first line, not the rest of the input, and the
second line is lexed on its own. -/
theorem C13_end_of_input_counterexample :
    tokens 8 ['\x27', 'a', 'b', '\n', 'c', 'd'] =
        .ok [.String ['a', 'b'], .Newline, .Id ['c', 'd'], .Newline, .Eof] ∧
      Token.String ['a', 'b', '\n', 'c', 'd'] ∉
        [Token.String ['a', 'b'], .Newline, .Id ['c', 'd'], .Newline, .Eof] :=
  ⟨rfl, by decide⟩

/-- C13 (amended): for a quote character `d` and a text without a closing
`d`, that is pieces as in C12 up to the end of the line, possibly followed by
one last backslash, `ReadString` consumes the whole rest of the line and
appends the one `String` token with the payload of the pieces and that last
backslash kept; the dispatch loop then closes the line with `Newline` and
returns. Every text has a closing `d` as in C12 or is of this form. -/
theorem C13_unterminated_string (d : Char) (hd : d = '\x27' ∨ d = '\x22')
    (body : List StrItem) (hbody : ∀ i ∈ body, i.wellFormed d) (trail : List Char)
    (htrail : trail = [] ∨ trail = ['\x5c']) (fuel : Nat) (nl : Bool) (lx : Lexer) :
    ReadString (sourceText body ++ trail) d lx =
        ([], lx.push_back (.String (payloadText body ++ trail))) ∧
    ReadLineLoop (fuel + 1) (d :: (sourceText body ++ trail)) nl lx =
        .ok ((lx.push_back (.String (payloadText body ++ trail))).push_back .Newline) ∧
    (∀ s : List Char, ∃ items : List StrItem, (∀ i ∈ items, i.wellFormed d) ∧
        ((∃ rest, s = sourceText items ++ d :: rest) ∨
          ∃ t, (t = [] ∨ t = ['\x5c']) ∧ s = sourceText items ++ t)) := by
  have hne : d ≠ '\x5c' := by
    rcases hd with rfl | rfl <;> decide
  have hR : ReadString (sourceText body ++ trail) d lx =
      ([], lx.push_back (.String (payloadText body ++ trail))) := by
    rw [ReadString, ReadStringLoop_open d hne trail htrail body [] hbody]
    rfl
  refine ⟨hR, ?_, fun s => string_text_cases d s.length s le_rfl⟩
  have hstep : ReadLineLoop (fuel + 1) (d :: (sourceText body ++ trail)) nl lx =
      ReadLineLoop fuel (ReadString (sourceText body ++ trail) d lx).1 true
        (ReadString (sourceText body ++ trail) d lx).2 := by
    rcases hd with rfl | rfl <;> rfl
  rw [hstep, hR, ReadLineLoop_nil]
  rfl

/-- Witness for C13 (amended) on the line `"ab` with a backslash at its end. -/
theorem C13_unterminated_string_witness :
    ReadString ['a', 'b', '\x5c'] '\x22' Lexer.init =
      ([], Lexer.init.push_back (.String ['a', 'b', '\x5c'])) :=
  (C13_unterminated_string '\x22' (Or.inr rfl) [.plain 'a', .plain 'b']
    (by
      intro i hi
      simp only [List.mem_cons, List.mem_singleton, List.not_mem_nil, or_false] at hi
      rcases hi with rfl | rfl
      · exact ⟨by decide, by decide⟩
      · exact ⟨by decide, by decide⟩)
    ['\x5c'] (Or.inr rfl) 0 false Lexer.init).1

/-- C14: when the dispatch loop of `ReadLine` reads a digit `d` that starts
the maximal run of digits `d :: ds`, and the number the run denotes fits a
32-bit signed `int`, it appends the one `Number` token with that value and
continues right after the run, whatever follows it. The example of the claim
evaluates as stated. -/
theorem C14_number (fuel : Nat) (d : Char) (ds rest : List Char) (nl : Bool) (lx : Lexer)
    (hd : isdigit d = true) (hds : ∀ c ∈ ds, isdigit c = true)
    (hrest : ∀ c, rest.head? = some c → isdigit c = false)
    (hfit : decimalValue (d :: ds) ≤ 2147483647) :
    ReadLineLoop (fuel + 1) (d :: ds ++ rest) nl lx =
        ReadLineLoop fuel rest true (lx.push_back (.Number (decimalValue (d :: ds)))) ∧
    tokens (fuel + 4) "x = 1\n".toList =
        .ok [.Id ['x'], .Char '=', .Number 1, .Newline, .Eof] := by
  refine ⟨?_, tokens_fuel_le (Nat.le_add_left 4 fuel) rfl⟩
  have hrun := digit_run (d :: ds) rest
    (fun c hc => by
      rcases List.mem_cons.1 hc with rfl | hc
      · exact hd
      · exact hds c hc) hrest
  have h1 : ¬ d = ' ' := by
    rintro rfl
    exact absurd hd (by decide)
  have h2 : ¬ d = '#' := by
    rintro rfl
    exact absurd hd (by decide)
  rw [List.cons_append, ReadLineLoop, if_neg h1, if_neg h2, if_pos hd]
  simp only [ReadNumber]
  have hfit' : decimalValue (d :: ds) ≤ INT_MAX := hfit
  rw [← List.cons_append, hrun.1, hrun.2, digitsValue_eq_decimalValue, if_pos hfit']

/-- Witness for C14 on the line `2147483647.5`. -/
theorem C14_number_witness :
    ReadLineLoop 1 "2147483647.5".toList false Lexer.init =
      ReadLineLoop 0 ".5".toList true (Lexer.init.push_back (.Number 2147483647)) :=
  (C14_number 0 '2' "147483647".toList ".5".toList false Lexer.init (by decide)
    (by decide) (by decide) (by decide)).1

/-! ## Lemmas on the cursor -/

theorem Lexer_constructed {fuel : Nat} {input : List Char} {lx : Lexer}
    (h : Lexer.Lexer fuel input = .ok lx) :
    lx.head_ = 0 ∧ tokens fuel input = .ok lx.line_ ∧
      ∃ body : List Token, lx.line_ = body ++ [Token.Eof] ∧ Token.Eof ∉ body := by
  have ht : tokens fuel input = .ok lx.line_ := by
    rw [tokens, h]
    rfl
  obtain ⟨segs, -, hseg, hbuf⟩ := tokens_segments ht
  refine ⟨?_, ht, assemble 0 segs ++ bridge (finalLevel 0 segs) 0, hbuf, ?_⟩
  · unfold Lexer.Lexer at h
    cases hL : LexerLoop fuel (getlines input) Lexer.init with
    | error e => simp [hL] at h
    | ok lx0 =>
      obtain ⟨sg, -, -, h3⟩ := LexerLoop_segments fuel _ _ _ hL
      simp only [hL, Except.ok.injEq] at h
      rw [← h, h3]
      rfl
  · intro hmem
    rcases List.mem_append.1 hmem with hm | hm
    · rcases mem_assemble segs 0 hm with e | e | e | ⟨sg, hsg, e⟩
      · exact Token.noConfusion e
      · exact Token.noConfusion e
      · exact Token.noConfusion e
      · exact Bool.noConfusion (hseg sg hsg _ e)
    · rcases mem_bridge hm with e | e <;> exact Token.noConfusion e

theorem NextTokens_spec (lx : Lexer) (h0 : lx.head_ = 0) (hn : 0 < lx.line_.length) :
    ∀ k : Nat, NextTokens k lx =
      ⟨lx.line_, min k (lx.line_.length - 1), lx.indent_level_⟩
  | 0 => by
    cases lx
    simp only [NextTokens] at *
    simp [h0]
  | k + 1 => by
    rw [NextTokens, NextTokens_spec lx h0 hn k, NextToken]
    simp only
    split_ifs with hlt
    · congr 1
      omega
    · congr 1
      omega

theorem get_last_Eof {body : List Token} {i : Nat} (hb : Token.Eof ∉ body)
    (h : (body ++ [Token.Eof]).get? i = some Token.Eof) : i = body.length := by
  rcases Nat.lt_trichotomy i body.length with hlt | heq | hgt
  · rw [List.get?_eq_getElem?, List.getElem?_append_left hlt] at h
    exact absurd (List.getElem?_mem h) hb
  · exact heq
  · rw [List.get?_eq_getElem?, List.getElem?_eq_none (by simp; omega)] at h
    exact Option.noConfusion h

/-- C15: after construction and any number of `NextToken` calls the cursor
is below the size of the buffer, the buffer is the one built, and
`CurrentToken` returns the element at the cursor, not the failure. -/
theorem C15_cursor_in_range (fuel : Nat) (input : List Char) (lx : Lexer)
    (h : Lexer.Lexer fuel input = .ok lx) (k : Nat) :
    (NextTokens k lx).line_ = lx.line_ ∧
    (NextTokens k lx).head_ < (NextTokens k lx).line_.length ∧
    CurrentToken (NextTokens k lx) = (NextTokens k lx).line_.get? (NextTokens k lx).head_ ∧
    ∃ t, CurrentToken (NextTokens k lx) = some t := by
  obtain ⟨h0, -, body, hb, -⟩ := Lexer_constructed h
  have hn : 0 < lx.line_.length := by
    rw [hb]
    simp
  rw [NextTokens_spec lx h0 hn k]
  have hlt : min k (lx.line_.length - 1) < lx.line_.length := by omega
  refine ⟨rfl, hlt, ?_, ?_⟩
  · simp only [CurrentToken, if_pos hlt]
  · simp only [CurrentToken, if_pos hlt]
    exact ⟨_, List.get?_eq_get hlt⟩

/-- Witness for C15 on the input `x = 1`: three calls of `NextToken`. -/
theorem C15_cursor_in_range_witness :
    CurrentToken (NextTokens 3 ⟨[.Id ['x'], .Char '=', .Number 1, .Newline, .Eof], 0, 0⟩) =
      List.get? [Token.Id ['x'], .Char '=', .Number 1, .Newline, .Eof]
        (NextTokens 3 ⟨[.Id ['x'], .Char '=', .Number 1, .Newline, .Eof], 0, 0⟩).head_ :=
  (C15_cursor_in_range 8 "x = 1\n".toList
    ⟨[.Id ['x'], .Char '=', .Number 1, .Newline, .Eof], 0, 0⟩ rfl 3).2.2.1

/-- C16: on a constructed lexer with `n` tokens the call number `k + 1` of
`NextToken` leaves the cursor at `min (k + 1) (n - 1)` and returns the token
at that position; once `CurrentToken` is `Eof`, `NextToken` returns `Eof` and
leaves the state as it is. -/
theorem C16_next_token (fuel : Nat) (input : List Char) (lx : Lexer)
    (h : Lexer.Lexer fuel input = .ok lx) (k : Nat) :
    (NextToken (NextTokens k lx)).1 =
        ⟨lx.line_, min (k + 1) (lx.line_.length - 1), lx.indent_level_⟩ ∧
    (NextToken (NextTokens k lx)).2 = lx.line_.get? (min (k + 1) (lx.line_.length - 1)) ∧
    (∃ t, (NextToken (NextTokens k lx)).2 = some t) ∧
    (CurrentToken (NextTokens k lx) = some .Eof →
      NextToken (NextTokens k lx) = (NextTokens k lx, some .Eof)) := by
  obtain ⟨h0, -, body, hb, hnb⟩ := Lexer_constructed h
  have hn : 0 < lx.line_.length := by
    rw [hb]
    simp
  have hstate : (NextToken (NextTokens k lx)).1 =
      ⟨lx.line_, min (k + 1) (lx.line_.length - 1), lx.indent_level_⟩ := by
    have := NextTokens_spec lx h0 hn (k + 1)
    rw [NextTokens] at this
    exact this
  have hlt : min (k + 1) (lx.line_.length - 1) < lx.line_.length := by omega
  have htok : (NextToken (NextTokens k lx)).2 =
      lx.line_.get? (min (k + 1) (lx.line_.length - 1)) := by
    have : (NextToken (NextTokens k lx)).2 = CurrentToken (NextToken (NextTokens k lx)).1 := rfl
    rw [this, hstate]
    simp only [CurrentToken, if_pos hlt]
  refine ⟨hstate, htok, ⟨_, htok.trans (List.get?_eq_get hlt)⟩, fun hcur => ?_⟩
  have hk := NextTokens_spec lx h0 hn k
  have hklt : min k (lx.line_.length - 1) < lx.line_.length := by omega
  rw [hk] at hcur ⊢
  simp only [CurrentToken, if_pos hklt] at hcur
  have hpos : min k (lx.line_.length - 1) = body.length :=
    get_last_Eof hnb (hb ▸ hcur)
  have hlen : lx.line_.length = body.length + 1 := by
    rw [hb]
    simp
  have hno : ¬ (min k (lx.line_.length - 1) + 1 < lx.line_.length) := by omega
  simp only [NextToken, if_neg hno, CurrentToken, if_pos hklt, hcur]

/-- Witness for C16 on the input `x = 1`: the seventh call of `NextToken`. -/
theorem C16_next_token_witness :
    (NextToken (NextTokens 6 ⟨[.Id ['x'], .Char '=', .Number 1, .Newline, .Eof], 0, 0⟩)).2 =
      some .Eof :=
  (C16_next_token 8 "x = 1\n".toList
    ⟨[.Id ['x'], .Char '=', .Number 1, .Newline, .Eof], 0, 0⟩ rfl 6).2.1

/-! ## Lemmas on token equality and on prefixes of the buffer -/

theorem operator_eq_iff (a b : Token) : operator_eq a b = true ↔ a = b := by
  cases a <;> cases b <;>
    simp [operator_eq, Token.index, IsChar, IsNumber, IsString, IsId, AsChar, AsNumber,
      AsString, AsId]

theorem same_case_payload_iff (a b : Token) :
    (a.index = b.index ∧ AsNumber a = AsNumber b ∧ AsId a = AsId b ∧
      AsString a = AsString b ∧ AsChar a = AsChar b) ↔ a = b := by
  constructor
  · cases a <;> cases b <;>
      simp [Token.index, AsChar, AsNumber, AsString, AsId]
  · rintro rfl
    exact ⟨rfl, rfl, rfl, rfl, rfl⟩

/-- C17: `operator==` is true exactly for two tokens of the same case whose
`Number`, `Id`, `String` and `Char` payloads, where present, are equal, that
is for equal tokens; two tokens of the same case without payload are equal;
`operator!=` is its negation; `operator==` is reflexive, symmetric and
transitive. -/
theorem C17_token_equality :
    (∀ a b : Token, operator_eq a b = true ↔
      (a.index = b.index ∧ AsNumber a = AsNumber b ∧ AsId a = AsId b ∧
        AsString a = AsString b ∧ AsChar a = AsChar b)) ∧
    (∀ a b : Token, operator_eq a b = true ↔ a = b) ∧
    (∀ a b : Token, a.index = b.index → IsNumber a = false → IsId a = false →
      IsString a = false → IsChar a = false → operator_eq a b = true) ∧
    (∀ a b : Token, operator_ne a b = !operator_eq a b) ∧
    (∀ a : Token, operator_eq a a = true) ∧
    (∀ a b : Token, operator_eq a b = operator_eq b a) ∧
    (∀ a b c : Token, operator_eq a b = true → operator_eq b c = true →
      operator_eq a c = true) := by
  refine ⟨fun a b => (operator_eq_iff a b).trans (same_case_payload_iff a b).symm,
    operator_eq_iff, ?_, fun _ _ => rfl, fun a => (operator_eq_iff a a).2 rfl, ?_, ?_⟩
  · intro a b hi h1 h2 h3 h4
    cases a <;> cases b <;>
      simp_all [operator_eq, Token.index, IsChar, IsNumber, IsString, IsId]
  · intro a b
    rw [Bool.eq_iff_iff, operator_eq_iff, operator_eq_iff]
    exact eq_comm
  · intro a b c hab hbc
    rw [operator_eq_iff] at *
    exact hab.trans hbc

/-- Witness for C17: `Id{x}` against `Id{x}`, `Id{y}` and `String{x}`. -/
theorem C17_token_equality_witness :
    operator_eq (.Id ['x']) (.Id ['x']) = true ∧ operator_eq (.Id ['x']) (.Id ['y']) = false ∧
      operator_eq (.Id ['x']) (.String ['x']) = false ∧
      (operator_eq (.Id ['x']) (.Id ['x']) = true ↔ Token.Id ['x'] = Token.Id ['x']) :=
  ⟨rfl, rfl, rfl, C17_token_equality.2.1 (.Id ['x']) (.Id ['x'])⟩

/-- C18: on a line with `n` leading spaces in front of a character `c` other
than a space and the text `rest` after it, `EmptyLine` returns true exactly
when `c` is `#`, or `n` is positive and `rest` is empty; it returns true for
the empty line. The line of two spaces and `x` is skipped: construction on it
yields `Eof` alone. -/
theorem C18_EmptyLine (n : Nat) (c : Char) (rest : List Char) (hc : c ≠ ' ') :
    EmptyLine (List.replicate n ' ' ++ c :: rest) =
        .ok (decide (c = '#' ∨ (0 < n ∧ rest = []))) ∧
    EmptyLine [] = .ok true ∧
    (∀ fuel : Nat, tokens fuel "  x".toList = .ok [.Eof]) := by
  refine ⟨?_, rfl, fun _ => rfl⟩
  have hf := find_first_leading_spaces rest hc n
  have hg := get_leading_spaces c rest n
  unfold EmptyLine
  rw [if_neg (by simp), hf]
  simp only [hg, Option.some.injEq, List.length_append, List.length_replicate, List.length_cons]
  have hlen : (n = n + (rest.length + 1) - 1) ↔ rest = [] := by
    rw [← List.length_eq_zero]
    omega
  by_cases h1 : c = '#'
  · simp [h1]
  · by_cases h2 : 0 < n ∧ rest = []
    · simp [h1, h2]
    · have h3 : ¬ (0 < n ∧ n = n + (rest.length + 1) - 1) := by
        rw [hlen]
        exact h2
      have h4 : (decide (n > 0) && decide (n = n + (rest.length + 1) - 1)) = false := by
        simpa using h3
      simp only [h1, decide_False, Bool.false_or, h4, h2, or_self]
      rfl

/-- Witness for C18 on the line of one space and `xy`, which is not skipped. -/
theorem C18_EmptyLine_witness : EmptyLine " xy".toList = .ok false :=
  (C18_EmptyLine 1 'x' ['y'] (by decide)).1

theorem ReadIdLoop_payload : ∀ (s acc : List Char),
    (∀ c ∈ acc, isspace c = false ∧ (ispunct c = true → c = '_')) →
    ∀ c ∈ (ReadIdLoop s acc).2, isspace c = false ∧ (ispunct c = true → c = '_')
  | [], acc, h => h
  | x :: rest, acc, h => by
    rw [ReadIdLoop]
    split_ifs with h1 h2
    · exact h
    · exact h
    · refine ReadIdLoop_payload rest (acc ++ [x]) fun c hc => ?_
      rcases List.mem_append.1 hc with hc | hc
      · exact h c hc
      · rw [List.mem_singleton.1 hc]
        simp only [Bool.or_eq_true, Bool.and_eq_true, decide_eq_true_eq, not_or, not_and,
          Bool.not_eq_true, ne_eq, Decidable.not_not] at h1
        exact ⟨h1.1.1, h1.2⟩

/-- C19 (fails on the code): a carriage return, form feed or vertical tab
at which the dispatch loop of `ReadLine` arrives is handed to `ReadId`,
which consumes it and appends an `Id` with an empty payload; a line with a
carriage return at its end gets such a token. What `ReadId` accumulates never
holds a whitespace character or punctuation other than the underscore. -/
theorem C19_empty_identifier :
    tokens 5 "x = 1\r\n".toList =
        .ok [.Id ['x'], .Char '=', .Number 1, .Id [], .Newline, .Eof] ∧
    tokens 1 ['\r'] = .ok [.Id [], .Newline, .Eof] ∧
    tokens 1 [Char.ofNat 12] = .ok [.Id [], .Newline, .Eof] ∧
    tokens 1 [Char.ofNat 11] = .ok [.Id [], .Newline, .Eof] ∧
    (∀ s : List Char,
      ∀ c ∈ (ReadIdLoop s []).2, isspace c = false ∧ (ispunct c = true → c = '_')) :=
  ⟨rfl, rfl, rfl, rfl, fun s => ReadIdLoop_payload s [] (by simp)⟩

theorem assemble_append : ∀ (s1 s2 : List (Nat × List Token)) (cur : Nat),
    assemble cur (s1 ++ s2) = assemble cur s1 ++ assemble (finalLevel cur s1) s2
  | [], _, _ => rfl
  | seg :: more, s2, cur => by
    simp [assemble, finalLevel, assemble_append more s2 seg.1]

theorem finalLevel_append : ∀ (s1 s2 : List (Nat × List Token)) (cur : Nat),
    finalLevel cur (s1 ++ s2) = finalLevel (finalLevel cur s1) s2
  | [], _, _ => rfl
  | seg :: more, s2, cur => by
    simp [finalLevel, finalLevel_append more s2 seg.1]

theorem depth_append (l1 l2 : List Token) (cur cur' : Nat)
    (h1 : l1.count .Dedent ≤ cur)
    (hbal : l1.count .Indent + cur = l1.count .Dedent + cur')
    (h2 : ∀ k, (l2.take k).count .Dedent ≤ (l2.take k).count .Indent + cur') :
    ∀ k, ((l1 ++ l2).take k).count .Dedent ≤ ((l1 ++ l2).take k).count .Indent + cur := by
  intro k
  rw [List.take_append_eq_append_take, List.count_append, List.count_append]
  by_cases hk : k ≤ l1.length
  · have h0 : k - l1.length = 0 := by omega
    have hle := (List.take_sublist k l1).count_le Token.Dedent
    simp only [h0, List.take_zero, List.count_nil]
    omega
  · rw [List.take_of_length_le (by omega)]
    have := h2 (k - l1.length)
    omega

theorem depth_assemble : ∀ (segs : List (Nat × List Token)) (cur : Nat) (tail : List Token),
    (∀ seg ∈ segs, ∀ tok ∈ seg.2, isLineToken tok = true) →
    (∀ k, (tail.take k).count .Dedent ≤ (tail.take k).count .Indent + finalLevel cur segs) →
    ∀ k, ((assemble cur segs ++ tail).take k).count .Dedent ≤
      ((assemble cur segs ++ tail).take k).count .Indent + cur
  | [], _, _, _, ht => by simpa [assemble, finalLevel] using ht
  | seg :: more, cur, tail, h, ht => by
    have ih := depth_assemble more seg.1 tail
      (fun sg hsg => h sg (List.mem_cons_of_mem _ hsg)) ht
    have hI : seg.2.count .Indent = 0 := count_lineTokens rfl (h seg (List.mem_cons_self _ _))
    have hD : seg.2.count .Dedent = 0 := count_lineTokens rfl (h seg (List.mem_cons_self _ _))
    have hN1 : [Token.Newline].count .Indent = 0 := by decide
    have hN2 : [Token.Newline].count .Dedent = 0 := by decide
    have hcI : (bridge cur seg.1 ++ seg.2 ++ [Token.Newline]).count .Indent = seg.1 - cur := by
      rw [List.count_append, List.count_append, count_bridge_Indent, hI, hN1]
      rfl
    have hcD : (bridge cur seg.1 ++ seg.2 ++ [Token.Newline]).count .Dedent = cur - seg.1 := by
      rw [List.count_append, List.count_append, count_bridge_Dedent, hD, hN2]
      rfl
    have := depth_append (bridge cur seg.1 ++ seg.2 ++ [Token.Newline])
      (assemble seg.1 more ++ tail) cur seg.1 (by omega) (by omega) ih
    simpa only [assemble, List.append_assoc] using this

/-- C20: in a buffer the constructor produces, no prefix holds more `Dedent`
than `Indent` tokens; and with the buffer split into its logical lines as in
C5, the part of the buffer up to and including the tokens of a line holds as
many `Indent` tokens more than `Dedent` tokens as the level of that line. -/
theorem C20_depth_never_negative (fuel : Nat) (input : List Char) (buf : List Token)
    (h : tokens fuel input = .ok buf) :
    (∀ p : List Token, p <+: buf → p.count .Dedent ≤ p.count .Indent) ∧
    ∃ segs : List (Nat × List Token),
      segs.map Prod.fst = lineLevels (getlines input) ∧
      (∀ seg ∈ segs, ∀ tok ∈ seg.2, isLineToken tok = true) ∧
      buf = assemble 0 segs ++ bridge (finalLevel 0 segs) 0 ++ [Token.Eof] ∧
      ∀ (before after : List (Nat × List Token)) (seg : Nat × List Token),
        segs = before ++ seg :: after →
        assemble 0 (before ++ [seg]) <+: buf ∧
        (assemble 0 (before ++ [seg])).count .Indent =
          (assemble 0 (before ++ [seg])).count .Dedent + seg.1 := by
  obtain ⟨segs, hlv, hseg, hbuf⟩ := tokens_segments h
  constructor
  · intro p hp
    have htail : ∀ k, ((bridge (finalLevel 0 segs) 0 ++ [Token.Eof]).take k).count .Dedent ≤
        ((bridge (finalLevel 0 segs) 0 ++ [Token.Eof]).take k).count .Indent +
          finalLevel 0 segs := by
      intro k
      have hle := (List.take_sublist k (bridge (finalLevel 0 segs) 0 ++ [Token.Eof])).count_le
        Token.Dedent
      have hE : [Token.Eof].count .Dedent = 0 := by decide
      rw [List.count_append, count_bridge_Dedent, hE] at hle
      omega
    have hall := depth_assemble segs 0 _ hseg htail p.length
    rw [List.prefix_iff_eq_take.1 hp, hbuf, List.append_assoc]
    simpa using hall
  · refine ⟨segs, hlv, hseg, hbuf, fun before after seg hsplit => ⟨?_, ?_⟩⟩
    · have e1 : assemble 0 (before ++ seg :: after) =
          assemble 0 (before ++ [seg]) ++ assemble (finalLevel 0 (before ++ [seg])) after := by
        have e0 : before ++ seg :: after = (before ++ [seg]) ++ after := by simp
        rw [e0]
        exact assemble_append _ _ _
      rw [hbuf, hsplit, e1, List.append_assoc, List.append_assoc]
      exact List.prefix_append _ _
    · have hsub : ∀ sg ∈ before ++ [seg], ∀ tok ∈ sg.2, isLineToken tok = true := by
        intro sg hsg
        refine hseg sg ?_
        rw [hsplit]
        rcases List.mem_append.1 hsg with hm | hm
        · exact List.mem_append_left _ hm
        · rw [List.mem_singleton.1 hm]
          exact List.mem_append_right _ (List.mem_cons_self _ _)
      have hc := count_assemble (before ++ [seg]) 0 hsub
      rw [finalLevel_append] at hc
      simpa [finalLevel] using hc

/-- Witness for C20 on the example of C5: the prefix up to `Indent`. -/
theorem C20_depth_never_negative_witness :
    List.count Token.Dedent [.If, .Id ['x'], .Char ':', .Newline, .Indent] ≤
      List.count Token.Indent [.If, .Id ['x'], .Char ':', .Newline, .Indent] :=
  (C20_depth_never_negative 8 "if x:\n  return 1\n".toList _ rfl).1
    [.If, .Id ['x'], .Char ':', .Newline, .Indent] ⟨[.Return, .Number 1, .Newline, .Dedent, .Eof], rfl⟩

end parse
